import Mathlib

/-!
Verification of the Markdown sanitization and SoT-linting utilities.

Text is modelled as `List Char` (Python `str` is a sequence of code points;
UTF-8 encoding is injective, so equalities of encoded bytes correspond to
equalities of these lists).  Each definition is a direct translation of the
corresponding Python function, keeping its name where Lean allows.
-/

namespace WoolyFluffy

/-- Characters matched by Python's `\s` (and stripped by `str.strip()`)
for `str` patterns: `Py_UNICODE_ISSPACE`. -/
def isPySpace (c : Char) : Bool :=
  (0x09 ≤ c.toNat && c.toNat ≤ 0x0d) || c.toNat == 0x20 ||
  (0x1c ≤ c.toNat && c.toNat ≤ 0x1f) || c.toNat == 0x85 || c.toNat == 0xa0 ||
  c.toNat == 0x1680 || (0x2000 ≤ c.toNat && c.toNat ≤ 0x200a) ||
  c.toNat == 0x2028 || c.toNat == 0x2029 || c.toNat == 0x202f ||
  c.toNat == 0x205f || c.toNat == 0x3000

/-- Line-boundary characters of Python `str.splitlines` (the CRLF pair is
handled separately by the splitter). -/
def isLineBreak (c : Char) : Bool :=
  c == '\n' || c == '\r' || c.toNat == 0x0b || c.toNat == 0x0c ||
  c.toNat == 0x1c || c.toNat == 0x1d || c.toNat == 0x1e || c.toNat == 0x85 ||
  c.toNat == 0x2028 || c.toNat == 0x2029

/-- Python `str.splitlines(keepends=True)`: a CRLF pair is one boundary,
any other line-break character stands alone, and other characters extend
the current line. -/
def pySplitLines : List Char → List (List Char)
  | [] => []
  | c :: rest =>
    if c = '\r' then
      match rest with
      | d :: rest2 =>
        if d = '\n' then ['\r', '\n'] :: pySplitLines rest2
        else ['\r'] :: pySplitLines (d :: rest2)
      | [] => [['\r']]
    else if isLineBreak c then [c] :: pySplitLines rest
    else
      match pySplitLines rest with
      | [] => [[c]]
      | l :: ls => (c :: l) :: ls

/-- Python `str.strip()`: remove leading and trailing whitespace. -/
def pyStrip (l : List Char) : List Char :=
  ((l.dropWhile isPySpace).reverse.dropWhile isPySpace).reverse

/-- `_FENCE_OPEN_RE = ^[ \t]{0,3}((?:X{3,})|(?:Y{3,}))` where X is a backtick
and Y a tilde; returns the fence character and the captured run length. -/
def fenceOpen? (l : List Char) : Option (Char × Nat) :=
  let ind := l.takeWhile (fun c => c == ' ' || c == '\t')
  if ind.length ≤ 3 then
    match l.drop ind.length with
    | c :: rest =>
      if c == '`' || c == '~' then
        let n := 1 + (rest.takeWhile (fun x => x == c)).length
        if 3 ≤ n then some (c, n) else none
      else none
    | [] => none
  else none

/-- `_FENCE_CLOSE_RE`: like `fenceOpen?` but the fence run may only be
followed by spaces/tabs and then the end of the line (Python `$`: the end of
the string or a single final newline). -/
def fenceClose? (l : List Char) : Option (Char × Nat) :=
  let ind := l.takeWhile (fun c => c == ' ' || c == '\t')
  if ind.length ≤ 3 then
    match l.drop ind.length with
    | c :: rest =>
      if c == '`' || c == '~' then
        let n := 1 + (rest.takeWhile (fun x => x == c)).length
        let tail := (rest.drop (n - 1)).dropWhile (fun x => x == ' ' || x == '\t')
        if 3 ≤ n && (tail == ([] : List Char) || tail == ['\n']) then
          some (c, n)
        else none
      else none
    | [] => none
  else none

/-- The line loop of `strip_fenced_code_blocks`: the state is `none` outside
a fence and `some (fence_char, fence_len)` inside one. -/
def stripFencedLines : Option (Char × Nat) → List (List Char) → List (List Char)
  | _, [] => []
  | none, l :: rest =>
    match fenceOpen? l with
    | some st => stripFencedLines (some st) rest
    | none => l :: stripFencedLines none rest
  | some st, l :: rest =>
    match fenceClose? l with
    | some cn =>
      if cn.1 == st.1 && st.2 ≤ cn.2 then stripFencedLines none rest
      else stripFencedLines (some st) rest
    | none => stripFencedLines (some st) rest

/-- `strip_fenced_code_blocks` from `md_sanitize.py`. -/
def strip_fenced_code_blocks (t : List Char) : List Char :=
  (stripFencedLines none (pySplitLines t)).flatten

/-- `_INDENTED_CODE_RE = ^(?:\t| {4,})`. -/
def indentedCode (l : List Char) : Bool :=
  match l with
  | '\t' :: _ => true
  | _ => 4 ≤ (l.takeWhile (fun c => c == ' ')).length

/-- `strip_indented_code_blocks` from `md_sanitize.py`. -/
def strip_indented_code_blocks (t : List Char) : List Char :=
  ((pySplitLines t).filter (fun l => !indentedCode l)).flatten

/-- The closer search of `_mask_inline_code_spans`: looks for the next run of
exactly `L` backticks; returns the number of characters consumed up to and
including that run, together with the remaining text.  The `fuel` argument
only forces termination: any `fuel ≥ length` computes the (always
terminating) Python loop. -/
def findCloserF (L : Nat) : Nat → List Char → Option (Nat × List Char)
  | _, [] => none
  | 0, _ :: _ => none
  | fuel + 1, c :: rest =>
    if c == '`' then
      let r := 1 + (rest.takeWhile (fun x => x == '`')).length
      let rest1 := rest.drop (r - 1)
      if r == L then some (r, rest1)
      else
        match findCloserF L fuel rest1 with
        | some (n, t) => some (r + n, t)
        | none => none
    else
      match findCloserF L fuel rest with
      | some (n, t) => some (1 + n, t)
      | none => none

/-- The dispatch on the character following a backslash run in
`_mask_inline_code_spans`: an odd run escapes an immediately following
backtick (which is then skipped), anything else resumes the main loop. -/
def maskBsTail (mf : List Char → List Char) (nbs : Nat) : List Char → List Char
  | '`' :: r2 => if nbs % 2 == 1 then '`' :: mf r2 else mf ('`' :: r2)
  | other => mf other

/-- Fuelled body of `_mask_inline_code_spans`; each step consumes at least
one character, so any `fuel ≥ length` computes the Python loop. -/
def maskInlineF : Nat → List Char → List Char
  | _, [] => []
  | 0, l => l
  | fuel + 1, '\\' :: rest =>
    let nbs := 1 + (rest.takeWhile (fun x => x == '\\')).length
    List.replicate nbs '\\' ++ maskBsTail (maskInlineF fuel) nbs (rest.drop (nbs - 1))
  | fuel + 1, '`' :: rest =>
    let L := 1 + (rest.takeWhile (fun x => x == '`')).length
    let rest1 := rest.drop (L - 1)
    match findCloserF L rest1.length rest1 with
    | some nt => List.replicate (L + nt.1) ' ' ++ maskInlineF fuel nt.2
    | none => List.replicate L '`' ++ maskInlineF fuel rest1
  | fuel + 1, c :: rest => c :: maskInlineF fuel rest

/-- `_mask_inline_code_spans` from `md_sanitize.py`: replace inline code
spans (delimiters included) by spaces, CommonMark escaping respected. -/
def maskInline (cs : List Char) : List Char :=
  maskInlineF cs.length cs

/-- Index of the first occurrence of `pat` in a list (Python `str.find` /
the start of the leftmost regex match for a literal pattern). -/
def findSubstrIdx (pat : List Char) : List Char → Option Nat
  | [] => if pat == ([] : List Char) then some 0 else none
  | c :: rest =>
    if pat.isPrefixOf (c :: rest) then some 0
    else
      match findSubstrIdx pat rest with
      | some i => some (i + 1)
      | none => none

/-- Fuelled splice loop of `strip_html_comment_blocks`: comment spans are
found in `masked` (via the regex `<!--` followed lazily by anything and
`-->`), and the corresponding ranges are removed from `orig`.  Each
iteration consumes at least seven characters of `masked`, so any
`fuel ≥ masked.length` computes the Python `finditer` loop. -/
def spliceCommentsF : Nat → List Char → List Char → List Char
  | 0, orig, _ => orig
  | fuel + 1, orig, masked =>
    match findSubstrIdx ['<', '!', '-', '-'] masked with
    | none => orig
    | some p =>
      match findSubstrIdx ['-', '-', '>'] (masked.drop (p + 4)) with
      | none => orig
      | some d =>
        orig.take p ++
          spliceCommentsF fuel (orig.drop (p + 4 + d + 3)) (masked.drop (p + 4 + d + 3))

/-- The splice loop of `strip_html_comment_blocks` at adequate fuel. -/
def spliceComments (orig masked : List Char) : List Char :=
  spliceCommentsF masked.length orig masked

/-- `strip_html_comment_blocks` from `md_sanitize.py`. -/
def strip_html_comment_blocks (t : List Char) : List Char :=
  let masked := maskInline t
  let result := spliceComments t masked
  let rmasked := maskInline result
  match findSubstrIdx ['<', '!', '-', '-'] rmasked with
  | none => result
  | some i => result.take i

/-- `sanitize_status_text` from `md_sanitize.py`: the fixed pipeline. -/
def sanitize_status_text (t : List Char) : List Char :=
  strip_html_comment_blocks (strip_indented_code_blocks (strip_fenced_code_blocks t))

/-- A lint finding: `LintError(path, message)` from `lint-sot.py`. -/
structure LintError where
  path : List Char
  message : List Char
deriving DecidableEq

/-- POSIX `os.path.basename`: the part after the last slash. -/
def pyBasename (p : List Char) : List Char :=
  (p.reverse.takeWhile (fun c => !(c == '/'))).reverse

/-- Match of `_STATUS_ANY_RE = ^\s*-\s*ステータス\s*:\s*\S` (MULTILINE) at a
fixed position: each greedy `\s*` is a maximal whitespace skip because the
following literal is never a whitespace character. -/
def statusTailMatch (cs : List Char) : Bool :=
  match cs.dropWhile isPySpace with
  | '-' :: r1 =>
    let pat := "ステータス".toList
    let r2 := r1.dropWhile isPySpace
    if pat.isPrefixOf r2 then
      match (r2.drop pat.length).dropWhile isPySpace with
      | ':' :: r4 =>
        match r4.dropWhile isPySpace with
        | c :: _ => !isPySpace c
        | [] => false
      | _ => false
    else false
  | _ => false

/-- Search part of `_STATUS_ANY_RE.search`: try the pattern at every
position following a newline (MULTILINE `^`). -/
def statusSearchAux : List Char → Bool
  | [] => false
  | c :: rest => (c == '\n' && statusTailMatch rest) || statusSearchAux rest

/-- `_STATUS_ANY_RE.search(text) is not None`: the pattern is anchored by
`^`, so it can match at the start of the text or after any newline. -/
def statusAnyMatch (cs : List Char) : Bool :=
  statusTailMatch cs || statusSearchAux cs

/-- The message of the misplaced-indentation finding of
`lint_status_format` (three adjacent Python string literals). -/
def statusFormatMessage : List Char :=
  ("ステータス行がインデント（4スペース以上）されています。" ++
   "メタ情報のステータスはトップレベル（インデントなし）で記述してください。" ++
   "例: - ステータス: Approved").toList

/-- `lint_status_format` from `lint-sot.py`. -/
def lint_status_format (relPath text : List Char) : List LintError :=
  if !("docs/prd/".toList.isPrefixOf relPath || "docs/epics/".toList.isPrefixOf relPath) then
    []
  else if pyBasename relPath == "_template.md".toList then
    []
  else
    let fenced_stripped := strip_fenced_code_blocks text
    let halfSanitized := strip_html_comment_blocks fenced_stripped
    let full := sanitize_status_text text
    if statusAnyMatch halfSanitized && !statusAnyMatch full then
      [⟨relPath, statusFormatMessage⟩]
    else []

/-- Fuelled Python `str.replace(pat, repl)` for a nonempty pattern:
left-to-right, non-overlapping.  Any `fuel ≥ length` computes the Python
behaviour (both call sites below use nonempty patterns). -/
def replaceAllF (pat repl : List Char) : Nat → List Char → List Char
  | _, [] => []
  | 0, l => l
  | fuel + 1, c :: rest =>
    if pat.isPrefixOf (c :: rest) && !pat.isEmpty then
      repl ++ replaceAllF pat repl fuel ((c :: rest).drop pat.length)
    else c :: replaceAllF pat repl fuel rest

/-- Python `str.replace(pat, repl)` at adequate fuel. -/
def replaceAll (pat repl : List Char) (l : List Char) : List Char :=
  replaceAllF pat repl l.length l

/-- `normalize_text_for_hash` from `validate-approval.py` (the UTF-8
encoding step is dropped: it is injective, so equality of the encoded
bytes is equality of these character lists). -/
def normalize_text_for_hash (t : List Char) : List Char :=
  let a := replaceAll ['\r', '\n'] ['\n'] t
  let b := replaceAll ['\r'] ['\n'] a
  if b.getLast? == some '\n' then b else b ++ ['\n']

/-- The accumulation loop of `_unique_ints`: keep the first occurrence of
each value, in document order. -/
def dedupFirstAux (seen : List Nat) : List Nat → List Nat
  | [] => []
  | v :: rest =>
    if seen.contains v then dedupFirstAux seen rest
    else v :: dedupFirstAux (v :: seen) rest

/-- `_unique_ints` from `lint-sot.py`: the input models `int(m.group(1))`
per match (`none` when the group is missing or unparsable, skipped), the
result is deduplicated (first occurrence wins) and sorted ascending. -/
def unique_ints (ms : List (Option Nat)) : List Nat :=
  (dedupFirstAux [] (ms.filterMap id)).insertionSort (· ≤ ·)

/-- Mapping every line break (LF, CR or CRLF) to LF: the composite effect of
the two sequential `str.replace` calls in `normalize_text_for_hash`. -/
def univNewlines : List Char → List Char
  | [] => []
  | '\r' :: '\n' :: rest => '\n' :: univNewlines rest
  | '\r' :: rest => '\n' :: univNewlines rest
  | c :: rest => c :: univNewlines rest

/-- A text assembled from logical lines under one line-ending convention
`conv`, with (`fin = true`) or without (`fin = false`) a final line ending. -/
def renderLines (conv : List Char) (fin : Bool) : List (List Char) → List Char
  | [] => if fin then conv else []
  | [l] => l ++ (if fin then conv else [])
  | l :: rest => l ++ conv ++ renderLines conv fin rest

/-- The same logical lines joined with a LF between consecutive lines. -/
def canonicalNl : List (List Char) → List Char
  | [] => []
  | [l] => l
  | l :: rest => l ++ '\n' :: canonicalNl rest

/-- `m` is `c` with some characters blanked to spaces (the relation between
masked and original text). -/
def blankedOf : List Char → List Char → Bool
  | [], [] => true
  | m :: ms, c :: cs => (m == c || m == ' ') && blankedOf ms cs
  | _, _ => false

/-- The fence state after processing a list of lines, mirroring the loop of
`strip_fenced_code_blocks`. -/
def stateAfter : Option (Char × Nat) → List (List Char) → Option (Char × Nat)
  | st, [] => st
  | none, l :: rest =>
    match fenceOpen? l with
    | some st2 => stateAfter (some st2) rest
    | none => stateAfter none rest
  | some st, l :: rest =>
    match fenceClose? l with
    | some cn =>
      if cn.1 == st.1 && st.2 ≤ cn.2 then stateAfter none rest
      else stateAfter (some st) rest
    | none => stateAfter (some st) rest

/-- A line that closes a fence opened with character `c` and run length
`n`: its own fence run must use the same character with length at least
`n`. -/
def isCloserFor (c : Char) (n : Nat) (l : List Char) : Bool :=
  match fenceClose? l with
  | some cn => cn.1 == c && n ≤ cn.2
  | none => false

/-- Drop every line up to and including the first closer of a `(c, n)`
fence (all of them if no closer exists). -/
def dropThroughCloser (c : Char) (n : Nat) : List (List Char) → List (List Char)
  | [] => []
  | l :: rest => if isCloserFor c n l then rest else dropThroughCloser c n rest

/-- A JSON-like Python value, as handled by `validate-review-json.py`
(floats do not occur in the checked fields and are not modelled). -/
inductive PyVal where
  | pstr : String → PyVal
  | pint : Int → PyVal
  | pbool : Bool → PyVal
  | pnull : PyVal
  | plist : List PyVal → PyVal
  | pdict : List (String × PyVal) → PyVal

/-- The keys of a Python dict (association list with unique keys). -/
def dictKeys (d : List (String × PyVal)) : List String := d.map (fun p => p.1)

/-- Python `dict.get(k)`: `None` when the key is absent (explicit `null`
values and absent keys behave identically in every use below). -/
def pyGet (d : List (String × PyVal)) (k : String) : PyVal :=
  match d.find? (fun p => p.1 == k) with
  | some p => p.2
  | none => PyVal.pnull

/-- Python `isinstance(v, int)` — `True`/`False` are ints in Python. -/
def pyIsInt : PyVal → Bool
  | PyVal.pint _ => true
  | PyVal.pbool _ => true
  | _ => false

/-- The integer value of a Python int (booleans count as 0/1). -/
def pyIntVal : PyVal → Int
  | PyVal.pint n => n
  | PyVal.pbool b => if b then 1 else 0
  | _ => 0

/-- Python `v == s` for a string literal `s`. -/
def pyEqStrLit (v : PyVal) (s : String) : Bool :=
  match v with
  | PyVal.pstr t => t == s
  | _ => false

/-- A single-quote character, used when reproducing Python `repr` output. -/
def sq : String := "\u0027"

/-- Python `repr` of a list of strings, as interpolated by f-strings. -/
def pyReprStrList (l : List String) : String :=
  "[" ++ String.intercalate ", " (l.map (fun s => sq ++ s ++ sq)) ++ "]"

/-- Python `sorted` on strings (code-point lexicographic). -/
def sortStrings (l : List String) : List String :=
  l.insertionSort (fun a b => a ≤ b)

/-- Python `str.split(sep)` for a one-character separator. -/
def splitOnChar (sep : Char) : List Char → List (List Char)
  | [] => [[]]
  | c :: rest =>
    if c = sep then [] :: splitOnChar sep rest
    else
      match splitOnChar sep rest with
      | g :: gs => (c :: g) :: gs
      | [] => [[c]]

/-- `is_repo_relative_path` from `validate-review-json.py`. -/
def is_repo_relative_path (p : String) : Bool :=
  if p = "" then false
  else if p.toList.head? = some '/' then false
  else if p = "." || p = ".." then false
  else ((splitOnChar '/' p.toList).filter (fun seg => seg ≠ ([] : List Char))).all
    (fun seg => seg ≠ "..".toList)

/-- A finding that blocks: a dict whose `priority` is `P0` or `P1`. -/
def isBlockingFinding (f : PyVal) : Bool :=
  match f with
  | PyVal.pdict d => pyEqStrLit (pyGet d "priority") "P0" || pyEqStrLit (pyGet d "priority") "P1"
  | _ => false

/-- The cross-field constraint section of `validate_review` (`status`
against the type-checked `findings` and `questions` lists). -/
def cross_field_errors (status : PyVal) (findings questions : List PyVal) : List String :=
  (if pyEqStrLit status "Approved" then
    (if findings.length ≠ 0 then ["Approved must have findings=[]"] else []) ++
    (if questions.length ≠ 0 then ["Approved must have questions=[]"] else [])
  else []) ++
  (if pyEqStrLit status "Approved with nits" then
    (if !(findings.filter isBlockingFinding).isEmpty then
      ["Approved with nits must not include P0/P1 findings"] else []) ++
    (if questions.length ≠ 0 then ["Approved with nits must have questions=[]"] else [])
  else []) ++
  (if pyEqStrLit status "Blocked" then
    (if (findings.filter isBlockingFinding).isEmpty then
      ["Blocked must include at least one P0/P1 finding"] else [])
  else []) ++
  (if pyEqStrLit status "Question" then
    (if questions.length = 0 then ["Question must include at least one question"] else [])
  else [])

/-- The per-finding validation loop body of `validate_review` (`continue`
statements become nested matches ending the item early). -/
def findingErrs (idx : Nat) (item : PyVal) : List String :=
  match item with
  | PyVal.pdict d =>
    let pre := "findings[" ++ toString idx ++ "]"
    let requiredF := ["body", "code_location", "priority", "title"]
    let missingErrs := (requiredF.filter (fun k => !(dictKeys d).contains k)).map
      (fun k => pre ++ " missing key: " ++ k)
    let extraF := sortStrings ((dictKeys d).eraseDups.filter (fun k => !requiredF.contains k))
    let extraErrs :=
      if extraF ≠ [] then [pre ++ " unexpected keys: " ++ pyReprStrList extraF] else []
    let titleErrs :=
      match pyGet d "title" with
      | PyVal.pstr s =>
        if s = "" then [pre ++ ".title must be a non-empty string"]
        else if 120 < s.length then [pre ++ ".title must be <= 120 chars"] else []
      | _ => [pre ++ ".title must be a non-empty string"]
    let bodyErrs :=
      match pyGet d "body" with
      | PyVal.pstr s => if s = "" then [pre ++ ".body must be a non-empty string"] else []
      | _ => [pre ++ ".body must be a non-empty string"]
    let priorityErrs :=
      match pyGet d "priority" with
      | PyVal.pstr s =>
        if ["P0", "P1", "P2", "P3"].contains s then []
        else [pre ++ ".priority must be one of " ++ pyReprStrList ["P0", "P1", "P2", "P3"]]
      | _ => [pre ++ ".priority must be one of " ++ pyReprStrList ["P0", "P1", "P2", "P3"]]
    let clErrs :=
      match pyGet d "code_location" with
      | PyVal.pdict cl =>
        let requiredCL := ["line_range", "repo_relative_path"]
        let missCL := requiredCL.filter (fun k => !(dictKeys cl).contains k)
        let missCLErrs :=
          if missCL ≠ [] then
            [pre ++ ".code_location missing keys: " ++ pyReprStrList missCL] else []
        let extraCL := sortStrings ((dictKeys cl).eraseDups.filter
          (fun k => !requiredCL.contains k))
        let extraCLErrs :=
          if extraCL ≠ [] then
            [pre ++ ".code_location unexpected keys: " ++ pyReprStrList extraCL] else []
        let pathErrs :=
          match pyGet cl "repo_relative_path" with
          | PyVal.pstr s =>
            if is_repo_relative_path s then []
            else [pre ++ ".code_location.repo_relative_path must be repo-relative (no " ++
              sq ++ ".." ++ sq ++ ", not absolute)"]
          | _ => [pre ++ ".code_location.repo_relative_path must be repo-relative (no " ++
              sq ++ ".." ++ sq ++ ", not absolute)"]
        let lrErrs :=
          match pyGet cl "line_range" with
          | PyVal.pdict lr =>
            let requiredLR := ["end", "start"]
            let missLR := requiredLR.filter (fun k => !(dictKeys lr).contains k)
            let missLRErrs :=
              if missLR ≠ [] then
                [pre ++ ".code_location.line_range missing keys: " ++ pyReprStrList missLR]
              else []
            let extraLR := sortStrings ((dictKeys lr).eraseDups.filter
              (fun k => !requiredLR.contains k))
            let extraLRErrs :=
              if extraLR ≠ [] then
                [pre ++ ".code_location.line_range unexpected keys: " ++
                  pyReprStrList extraLR]
              else []
            let startv := pyGet lr "start"
            let endv := pyGet lr "end"
            let startErrs :=
              if !pyIsInt startv || pyIntVal startv < 1 then
                [pre ++ ".code_location.line_range.start must be int >= 1"] else []
            let endErrs :=
              if !pyIsInt endv || pyIntVal endv < 1 then
                [pre ++ ".code_location.line_range.end must be int >= 1"] else []
            let ordErrs :=
              if pyIsInt startv && pyIsInt endv && pyIntVal endv < pyIntVal startv then
                [pre ++ ".code_location.line_range.end must be >= start"] else []
            missLRErrs ++ extraLRErrs ++ startErrs ++ endErrs ++ ordErrs
          | _ => [pre ++ ".code_location.line_range must be an object"]
        missCLErrs ++ extraCLErrs ++ pathErrs ++ lrErrs
      | _ => [pre ++ ".code_location must be an object"]
    missingErrs ++ extraErrs ++ titleErrs ++ bodyErrs ++ priorityErrs ++ clErrs
  | _ => ["findings[" ++ toString idx ++ "] is not an object"]

/-- The required top-level keys of a review object, in sorted order. -/
def requiredReviewKeys : List String :=
  ["findings", "overall_explanation", "questions", "schema_version", "scope_id", "status"]

/-- Whether a Python value is a string. -/
def isStrVal : PyVal → Bool
  | PyVal.pstr _ => true
  | _ => false

/-- The `findings` list after the type check (reassigned to `[]` when not
a list), as used by the per-item loop and the cross-field section. -/
def findingsOf (obj : List (String × PyVal)) : List PyVal :=
  match pyGet obj "findings" with
  | PyVal.plist l => l
  | _ => []

/-- The `questions` list after the type check (reassigned to `[]` when
not a list of strings), as used by the cross-field section. -/
def questionsOf (obj : List (String × PyVal)) : List PyVal :=
  match pyGet obj "questions" with
  | PyVal.plist l => if l.all isStrVal then l else []
  | _ => []

/-- The header portion of `validate_review` after the missing-key early
return: extra keys, `schema_version`, `scope_id`, `status`, the two list
type checks, and `overall_explanation`, in execution order. -/
def reviewHeadErrs (obj : List (String × PyVal)) (expected : Option String) : List String :=
  let extra := sortStrings ((dictKeys obj).eraseDups.filter
    (fun k => !requiredReviewKeys.contains k))
  let extraErrs :=
    if extra ≠ [] then ["unexpected keys: " ++ pyReprStrList extra] else []
  let schemaVal := pyGet obj "schema_version"
  let schemaErrs :=
    if pyIsInt schemaVal ∧ pyIntVal schemaVal = 3 then [] else ["schema_version must be 3"]
  let scopeErrs :=
    match pyGet obj "scope_id" with
    | PyVal.pstr s =>
      if s = "" then ["scope_id must be a non-empty string"]
      else
        match expected with
        | some e => if s = e then [] else ["scope_id mismatch: expected " ++ e ++ ", got " ++ s]
        | none => []
    | _ => ["scope_id must be a non-empty string"]
  let statusOk :=
    match pyGet obj "status" with
    | PyVal.pstr s => ["Approved", "Approved with nits", "Blocked", "Question"].contains s
    | _ => false
  let statusErrs :=
    if statusOk then []
    else ["status must be one of " ++
      pyReprStrList ["Approved", "Approved with nits", "Blocked", "Question"]]
  let findingsTypeErrs :=
    match pyGet obj "findings" with
    | PyVal.plist _ => []
    | _ => ["findings must be an array"]
  let questionsTypeErrs :=
    match pyGet obj "questions" with
    | PyVal.plist l => if l.all isStrVal then [] else ["questions must be an array of strings"]
    | _ => ["questions must be an array of strings"]
  let overallErrs :=
    match pyGet obj "overall_explanation" with
    | PyVal.pstr s => if s = "" then ["overall_explanation must be a non-empty string"] else []
    | _ => ["overall_explanation must be a non-empty string"]
  extraErrs ++ schemaErrs ++ scopeErrs ++ statusErrs ++ findingsTypeErrs ++
    questionsTypeErrs ++ overallErrs

/-- `validate_review` from `validate-review-json.py` (errors in execution
order; the early `return` on missing keys is the first branch). -/
def validate_review (obj : List (String × PyVal)) (expected : Option String) : List String :=
  if requiredReviewKeys.filter (fun k => !(dictKeys obj).contains k) ≠ [] then
    ["missing keys: " ++
      pyReprStrList (requiredReviewKeys.filter (fun k => !(dictKeys obj).contains k))]
  else
    (reviewHeadErrs obj expected ++
      ((findingsOf obj).enum.map (fun p => findingErrs p.1 p.2)).flatten) ++
    cross_field_errors (pyGet obj "status") (findingsOf obj) (questionsOf obj)

/-- Review object used to witness the Approved branches of the C9 theorem. -/
def c9objA : List (String × PyVal) :=
  [("schema_version", PyVal.pint 3), ("scope_id", PyVal.pstr "s1"),
   ("status", PyVal.pstr "Approved"), ("findings", PyVal.plist [PyVal.pint 0]),
   ("questions", PyVal.plist [PyVal.pstr "q"]), ("overall_explanation", PyVal.pstr "ok")]

/-- Review object used to witness the Blocked branch of the C9 theorem. -/
def c9objB : List (String × PyVal) :=
  [("schema_version", PyVal.pint 3), ("scope_id", PyVal.pstr "s1"),
   ("status", PyVal.pstr "Blocked"),
   ("findings", PyVal.plist [PyVal.pdict [("priority", PyVal.pstr "P2")]]),
   ("questions", PyVal.plist []), ("overall_explanation", PyVal.pstr "ok")]

/-- ASCII decimal digit (the `\d` class, restricted to ASCII as used by
the candidate-number documents). -/
def reDigit (c : Char) : Bool := c.isDigit

/-- Python `int` on a run of ASCII digits. -/
def natOfDigits (ds : List Char) : Nat :=
  ds.foldl (fun a c => a * 10 + (c.toNat - 48)) 0

/-- Index of the last newline in a list, if any. -/
def lastNewlineIdx : List Char → Option Nat
  | [] => none
  | c :: rest =>
    match lastNewlineIdx rest with
    | some i => some (i + 1)
    | none => if c = '\n' then some 0 else none

/-- A MULTILINE `^` position: offset 0 or just after a newline. -/
def lineStartB (t : List Char) (p : Nat) : Bool :=
  p == 0 ||
    (match t.drop (p - 1) with
     | c :: _ => c == '\n'
     | [] => false)

/-- Match of `\s*候補-(\d+)\s*$` at offset `p` (the `^` being checked by
the caller): the greedy `\s*` runs skip maximal whitespace, and the final
`$` backtracks to the end of input or the last newline of the run.
Returns the captured number and the offset where `$` matched. -/
def candHeaderAt (t : List Char) (p : Nat) : Option (Nat × Nat) :=
  let rest := t.drop p
  let sp := (rest.takeWhile isPySpace).length
  let r1 := rest.drop sp
  if ("候補-".toList).isPrefixOf r1 then
    let r2 := r1.drop 3
    let ds := r2.takeWhile reDigit
    if ds.isEmpty then none
    else
      let r3 := r2.drop ds.length
      let sp2 := r3.takeWhile isPySpace
      let dpos := p + sp + 3 + ds.length
      if (r3.drop sp2.length).isEmpty then some (natOfDigits ds, dpos + sp2.length)
      else
        match lastNewlineIdx sp2 with
        | some i => some (natOfDigits ds, dpos + i)
        | none => none
  else none

/-- The lookahead alternative `^\s*#{1,6}\s` at offset `e`: a heading of
at most six hashes followed by a whitespace character. -/
def headingLookAt (t : List Char) (e : Nat) : Bool :=
  lineStartB t e &&
    (let rest := (t.drop e).dropWhile isPySpace
     let k := (rest.takeWhile (fun c => c == '#')).length
     decide (1 ≤ k) && decide (k ≤ 6) &&
       (match rest.drop k with
        | c :: _ => isPySpace c
        | [] => false))

/-- The lookahead alternative `^\s*---\s*$` at offset `e`. -/
def hrLookAt (t : List Char) (e : Nat) : Bool :=
  lineStartB t e &&
    (let rest := (t.drop e).dropWhile isPySpace
     ("---".toList).isPrefixOf rest &&
       (let r3 := rest.drop 3
        let sp2 := r3.takeWhile isPySpace
        (r3.drop sp2.length).isEmpty || sp2.contains '\n'))

/-- The lookahead alternative `^\s*候補-\d+\s*$` at offset `e`. -/
def candLookAt (t : List Char) (e : Nat) : Bool :=
  lineStartB t e && (candHeaderAt t e).isSome

/-- The lazy `.*?` of the candidate-block regex: the smallest offset at
or after `e` where a lookahead alternative (or, on fuel exhaustion at the
end of input, `\Z`) holds. -/
def blockEndF (t : List Char) : Nat → Nat → Nat
  | 0, e => e
  | fuel + 1, e =>
    if candLookAt t e || headingLookAt t e || hrLookAt t e then e
    else blockEndF t fuel (e + 1)

/-- `finditer` over `_RESEARCH_CANDIDATE_BLOCK_RE`, returning the
captured numbers in document order: scan offsets left to right, match a
candidate header at a line start, extend through `.*?` to the block end,
and resume scanning there. -/
def candScanF (t : List Char) : Nat → Nat → List Nat
  | 0, _ => []
  | fuel + 1, s =>
    if t.length < s then []
    else if lineStartB t s then
      match candHeaderAt t s with
      | some (n, q) => n :: candScanF t fuel (blockEndF t (t.length - q) q)
      | none => candScanF t fuel (s + 1)
    else candScanF t fuel (s + 1)

/-- The numbers of all candidate (候補-N) blocks of a document, in
document order with one entry per `finditer` match. -/
def candNumbers (t : List Char) : List Nat := candScanF t (t.length + 2) 0

/-- `contract_text` of `lint_research_contract`: the sanitization
pipeline applied to the document before any block extraction. -/
def contract_text (t : List Char) : List Char :=
  strip_html_comment_blocks (maskInline (strip_indented_code_blocks (strip_fenced_code_blocks t)))

/-- The minimum-of-5 candidate cardinality rule of
`lint_research_contract`: the count is the raw number of `finditer`
matches on the sanitized text. -/
def candidate_count_errs (t : List Char) : List String :=
  let n := (candNumbers (contract_text t)).length
  if n < 5 then
    ["調査ドキュメントには候補（候補-1..）を 5件以上含めてください。 検出件数: " ++ toString n]
  else []

/-- Remove the (at most one) trailing line-break sequence of a
keepends line, giving Python `splitlines()` without keepends. -/
def dropLineEnd (l : List Char) : List Char :=
  match l.getLast? with
  | some c =>
    if c = '\n' then
      match l.dropLast.getLast? with
      | some '\r' => l.dropLast.dropLast
      | _ => l.dropLast
    else if isLineBreak c then l.dropLast
    else l
  | none => l

/-- Python `str.splitlines()` (no keepends). -/
def splitlinesNoEnd (t : List Char) : List (List Char) :=
  (pySplitLines t).map dropLineEnd

/-- The line loop of `extract_labeled_block`: collect lines after the
start label until an end label (both compared against stripped lines). -/
def extractLoop (startLabel : List Char) (endLabels : List (List Char)) :
    List (List Char) → Bool → List (List Char)
  | [], _ => []
  | l :: rest, inBlock =>
    let s := pyStrip l
    if inBlock then
      if endLabels.contains s then []
      else l :: extractLoop startLabel endLabels rest true
    else if s = startLabel then extractLoop startLabel endLabels rest true
    else extractLoop startLabel endLabels rest false

/-- `extract_labeled_block` from `lint-sot.py`. -/
def extract_labeled_block (sec startLabel : List Char)
    (endLabels : List (List Char)) : List Char :=
  List.intercalate ['\n'] (extractLoop startLabel endLabels (splitlinesNoEnd sec) false)

/-- `parse_table_cells` from `count_markdown_table_rows_with_headers`. -/
def parse_table_cells (row : List Char) : List (List Char) :=
  let s := pyStrip row
  let body := s.drop 1
  let body2 :=
    match body.getLast? with
    | some '|' => body.dropLast
    | _ => body
  (splitOnChar '|' body2).map pyStrip

/-- A character of the `[-:| ]` class of the alignment-row regex. -/
def alignClass (c : Char) : Bool := c == '-' || c == ':' || c == '|' || c == ' '

/-- `re.fullmatch` of the alignment-row pattern: a pipe, then (by the
language the regex denotes) whitespace, a non-empty run of the
`[-:| ]` class, an optional pipe and trailing whitespace. -/
def alignRowB (t : List Char) : Bool :=
  match t with
  | '|' :: w =>
    (List.range (w.length + 1)).any (fun i =>
      (List.range (w.length + 1)).any (fun j =>
        decide (i < j) &&
        ((w.take i).all isPySpace) &&
        (((w.drop i).take (j - i)).all alignClass) &&
        (let rest := w.drop j
         rest.all isPySpace ||
           (match rest with
            | '|' :: r2 => r2.all isPySpace
            | _ => false))))
  | _ => false

/-- The data-row counting loop of `count_markdown_table_rows_with_headers`:
stop at a non-pipe line, skip alignment rows and width mismatches. -/
def countRowsLoop (expectedCols : Nat) : List (List Char) → Nat
  | [] => 0
  | l :: rest =>
    let t := pyStrip l
    if t.head? = some '|' then
      if alignRowB t then countRowsLoop expectedCols rest
      else if (parse_table_cells t).length = expectedCols then
        1 + countRowsLoop expectedCols rest
      else countRowsLoop expectedCols rest
    else 0

/-- The header scan of `count_markdown_table_rows_with_headers`: the
first pipe line containing every required header starts the count; -1
when no such line exists. -/
def findTableCount (required : List (List Char)) : List (List Char) → Int
  | [] => -1
  | l :: rest =>
    let s := pyStrip l
    if s.head? = some '|' then
      let headerCells := parse_table_cells s
      if required.all (fun h => headerCells.contains h) then
        Int.ofNat (countRowsLoop headerCells.length rest)
      else findTableCount required rest
    else findTableCount required rest

/-- `count_markdown_table_rows_with_headers` from `lint-sot.py`. -/
def count_markdown_table_rows_with_headers (sec : List Char)
    (required : List (List Char)) : Int :=
  findTableCount required (splitlinesNoEnd sec)

/-- `_RESEARCH_EPIC_REQUIRED_TABLE_COLUMNS` from `lint-sot.py`. -/
def requiredTableCols : List (List Char) :=
  ["サービス名".toList, "ベンダー".toList, "初期費用".toList, "月額費用".toList,
   "レイテンシ".toList, "可用性SLO".toList, "運用負荷".toList, "適用判定".toList]

/-- The missing-required-columns message of the table rule. -/
def tableMissingColsMsg : String :=
  "外部サービス比較ゲートの " ++ sq ++ "定量比較表:" ++ sq ++ " に必須列がありません。 " ++
    "必須列: サービス名 / ベンダー / 初期費用 / 月額費用 / レイテンシ / " ++
    "可用性SLO / 運用負荷 / 適用判定"

/-- The fewer-than-three-data-rows message of the table rule. -/
def tableNeedsRowsMsg : String :=
  "外部サービス比較ゲートの " ++ sq ++ "定量比較表:" ++ sq ++ " は 3行以上のデータ行が必要です"

/-- The 定量比較表 fragment of `lint_epic_external_service_comparison`:
extract the labeled table block and apply the row-count rule. -/
def table_rule_errs (sec : List Char) : List String :=
  let table_block := extract_labeled_block sec "定量比較表:".toList ["判定理由:".toList]
  let table_rows := count_markdown_table_rows_with_headers table_block requiredTableCols
  if table_rows = -1 then [tableMissingColsMsg]
  else if table_rows < 3 then [tableNeedsRowsMsg]
  else []

/-- A concrete 外部サービス比較 section: required header, one alignment
row, exactly two data rows of matching width. -/
def c8section : List Char :=
  ("定量比較表:\n| サービス名 | ベンダー | 初期費用 | 月額費用 | レイテンシ | 可用性SLO | 運用負荷 | 適用判定 |\n| - |\n| a | b | c | d | e | f | g | h |\n| a2 | b2 | c2 | d2 | e2 | f2 | g2 | h2 |\n判定理由:\n- ok\n").toList

/-- `is_safe_repo_relative` from `sot_refs.py`. -/
def is_safe_repo_relative (p : List Char) : Bool :=
  if p.isEmpty then false
  else if p.head? = some '/' then false
  else if ((splitOnChar '/' p).filter (fun x => x ≠ [])).contains "..".toList then false
  else if p = ".".toList ∨ p = "..".toList then false
  else true

/-- The markdown-link target after an opening bracket: non-bracket text,
a closing bracket, and a non-empty parenthesized target. -/
def mdLinkTarget (rest : List Char) : Option (List Char) :=
  let a := rest.takeWhile (fun c => c ≠ ']')
  match rest.drop a.length with
  | ']' :: '(' :: r2 =>
    let g := r2.takeWhile (fun c => c ≠ ')')
    if g.isEmpty then none
    else
      match (r2.drop g.length).head? with
      | some ')' => some g
      | _ => none
  | _ => none

/-- Leftmost `re.search` of the markdown-link pattern, returning the
captured target. -/
def findMdLink : List Char → Option (List Char)
  | [] => none
  | '[' :: rest =>
    match mdLinkTarget rest with
    | some g => some g
    | none => findMdLink rest
  | _ :: rest => findMdLink rest

/-- `normalize_reference` from `sot_refs.py`: strip, unwrap a markdown
link, angle brackets and backticks, and drop a fragment tail. -/
def normalize_reference (ref0 : List Char) : List Char :=
  let ref1 := pyStrip ref0
  let ref2 :=
    match findMdLink ref1 with
    | some g => pyStrip g
    | none => ref1
  let ref3 :=
    if ref2.head? = some '<' ∧ ref2.getLast? = some '>' then pyStrip (ref2.drop 1).dropLast
    else ref2
  let ref4 :=
    if ref3.head? = some '`' ∧ ref3.getLast? = some '`' then pyStrip (ref3.drop 1).dropLast
    else ref3
  pyStrip (ref4.takeWhile (fun c => c ≠ '#'))

/-- A character allowed in a URL scheme. -/
def isSchemeChar (c : Char) : Bool := c.isAlphanum || c == '+' || c == '-' || c == '.'

/-- The (lowercased) scheme recognised by `urlparse`, or `[]`. -/
def urlScheme (ref : List Char) : List Char :=
  let pre := ref.takeWhile (fun c => c ≠ ':')
  if (ref.drop pre.length).head? = some ':' then
    match pre with
    | c :: rest =>
      if c.isAlpha && rest.all isSchemeChar then (c :: rest).map Char.toLower else []
    | [] => []
  else []

/-- The URL after its scheme marker, when a scheme is present. -/
def urlRest (ref : List Char) : List Char :=
  if urlScheme ref = [] then ref
  else ref.drop ((ref.takeWhile (fun c => c ≠ ':')).length + 1)

/-- `urlparse(...).netloc`: the authority after `//`. -/
def urlNetloc (ref : List Char) : List Char :=
  let rest := urlRest ref
  if ("//".toList).isPrefixOf rest then
    (rest.drop 2).takeWhile (fun c => c ≠ '/' && c ≠ '?' && c ≠ '#')
  else []

/-- `urlparse(...).path`. -/
def urlPath (ref : List Char) : List Char :=
  let rest := urlRest ref
  if ("//".toList).isPrefixOf rest then
    ((rest.drop 2).dropWhile (fun c => c ≠ '/' && c ≠ '?' && c ≠ '#')).takeWhile
      (fun c => c ≠ '?' && c ≠ '#')
  else rest.takeWhile (fun c => c ≠ '?' && c ≠ '#')

/-- The suffix after the last `@`, or the list itself. -/
def afterLastAt (l : List Char) : List Char :=
  (l.reverse.takeWhile (fun c => c ≠ '@')).reverse

/-- `urlparse(...).hostname`: lowercased host without userinfo or port
(bracketed IPv6 hosts do not occur in repository references). -/
def urlHostname (ref : List Char) : List Char :=
  ((afterLastAt (urlNetloc ref)).takeWhile (fun c => c ≠ ':')).map Char.toLower

/-- `posixpath.normpath`. -/
def normpathPosix (p : List Char) : List Char :=
  if p = [] then ['.']
  else
    let initSlashes : Nat :=
      if ("//".toList).isPrefixOf p ∧ ¬("///".toList).isPrefixOf p then 2
      else if p.head? = some '/' then 1 else 0
    let newComps := (splitOnChar '/' p).foldl (fun acc comp =>
      if comp = [] ∨ comp = ['.'] then acc
      else if comp ≠ "..".toList ∨ (initSlashes = 0 ∧ acc = []) ∨
          acc.getLast? = some "..".toList then acc ++ [comp]
      else if acc ≠ [] then acc.dropLast
      else acc) []
    let res := List.replicate initSlashes '/' ++ List.intercalate ['/'] newComps
    if res = [] then ['.'] else res

/-- Length of the common prefix of two segment lists. -/
def commonPrefixLen : List (List Char) → List (List Char) → Nat
  | x :: xs, y :: ys => if x = y then 1 + commonPrefixLen xs ys else 0
  | _, _ => 0

/-- `posixpath.relpath` between two absolute normalized paths. -/
def relpathPosix (pathAbs startAbs : List Char) : List Char :=
  let pl := (splitOnChar '/' pathAbs).filter (fun x => x ≠ [])
  let sl := (splitOnChar '/' startAbs).filter (fun x => x ≠ [])
  let i := commonPrefixLen sl pl
  let rel := List.replicate (sl.length - i) "..".toList ++ pl.drop i
  if rel = [] then ['.'] else List.intercalate ['/'] rel

/-- Join URL path segments with slashes. -/
def joinSlash (parts : List (List Char)) : List Char := List.intercalate ['/'] parts

/-- The safety check guarding every return of `resolve_ref_to_repo_path`:
return the candidate or raise with the given message. -/
def guardSafe (rel err : List Char) : Except (List Char) (List Char) :=
  if is_safe_repo_relative rel then Except.ok rel else Except.error err

/-- The http/https branch of `resolve_ref_to_repo_path`: GitHub blob and
tree URLs, raw.githubusercontent.com URLs, and an error otherwise. -/
def urlBranch (ref : List Char) : Except (List Char) (List Char) :=
  let host := urlHostname ref
  let parts := (splitOnChar '/' (urlPath ref)).filter (fun x => x ≠ [])
  if parts.contains "blob".toList then
    let i := parts.indexOf "blob".toList
    if parts.length ≤ i + 2 then Except.error ("invalid GitHub blob URL: ".toList ++ ref)
    else guardSafe (joinSlash (parts.drop (i + 2)))
      ("unsafe repo-relative path from URL: ".toList ++ ref)
  else if parts.contains "tree".toList then
    let i := parts.indexOf "tree".toList
    if parts.length ≤ i + 2 then Except.error ("invalid GitHub tree URL: ".toList ++ ref)
    else guardSafe (joinSlash (parts.drop (i + 2)))
      ("unsafe repo-relative path from URL: ".toList ++ ref)
  else if host = "raw.githubusercontent.com".toList then
    if parts.length < 5 then Except.error ("invalid raw GitHub URL: ".toList ++ ref)
    else guardSafe (joinSlash (parts.drop 4))
      ("unsafe repo-relative path from URL: ".toList ++ ref)
  else Except.error ("unsupported URL reference: ".toList ++ ref)

/-- The absolute-path branch of `resolve_ref_to_repo_path`. -/
def absBranch (f : List Char → List Char) (root ref : List Char) :
    Except (List Char) (List Char) :=
  let abs_path := f ref
  let repo_abs := f root
  if ¬(repo_abs ++ ['/']).isPrefixOf abs_path then
    Except.error ("absolute path outside repo: ".toList ++ ref)
  else
    let rel := relpathPosix abs_path repo_abs
    guardSafe rel ("unsafe repo-relative path: ".toList ++ rel)

/-- The relative-path branch of `resolve_ref_to_repo_path`. -/
def relBranch (ref : List Char) : Except (List Char) (List Char) :=
  let rel1 := if ("./".toList).isPrefixOf ref then ref.drop 2 else ref
  let rel := normpathPosix ((pyStrip rel1).map (fun c => if c = '\\' then '/' else c))
  guardSafe rel ("unsafe repo-relative path: ".toList ++ rel)

/-- `resolve_ref_to_repo_path` from `sot_refs.py`, with `os.path.realpath`
passed in as a function (the only filesystem dependence); raised
`ValueError`s become `Except.error` with the message. -/
def resolve_ref_to_repo_path (f : List Char → List Char)
    (repo_root ref0 : List Char) : Except (List Char) (List Char) :=
  let ref := normalize_reference ref0
  if ref.isEmpty then Except.error "empty reference".toList
  else if urlScheme ref = "http".toList ∨ urlScheme ref = "https".toList then urlBranch ref
  else if ref.head? = some '/' then absBranch f repo_root ref
  else relBranch ref

/-- No line-break character occurs in the list. -/
def noBreak (l : List Char) : Bool := l.all (fun c => !isLineBreak c)

/-- A keepends line with its terminator: break-free content followed by
CRLF or by a single line-break character. -/
def TermLine (l : List Char) : Prop :=
  ∃ body, noBreak body = true ∧
    (l = body ++ ['\r', '\n'] ∨ ∃ b, isLineBreak b = true ∧ l = body ++ [b])

/-- Well-formed keepends line lists: every line is terminated except
possibly the last, which may instead be non-empty and break-free. -/
def linesWF : List (List Char) → Prop
  | [] => True
  | l :: rest => (TermLine l ∨ (rest = [] ∧ noBreak l = true ∧ l ≠ [])) ∧ linesWF rest

/-- Merge a line ending in a bare CR with an immediately following bare
LF line: the effect of re-splitting the concatenation of kept lines. -/
def mergeCR : List (List Char) → List (List Char)
  | [] => []
  | [l] => [l]
  | l :: l2 :: rest =>
    if l.getLast? = some '\r' ∧ l2 = ['\n'] then (l ++ ['\n']) :: mergeCR rest
    else l :: mergeCR (l2 :: rest)

theorem takeWhileLen (p : Char → Bool) (l : List Char) :
    (l.takeWhile p).length ≤ l.length := by
  induction l with
  | nil => simp
  | cons c rest ih =>
    simp only [List.takeWhile_cons]
    split
    · simpa using ih
    · simp

theorem findCloserF_length (L : Nat) : ∀ (fuel : Nat) (cs : List Char),
    ∀ n t, findCloserF L fuel cs = some (n, t) → 1 ≤ n ∧ n + t.length = cs.length := by
  intro fuel
  induction fuel with
  | zero =>
    intro cs n t h
    cases cs <;> simp [findCloserF] at h
  | succ fuel ih =>
    intro cs n t h
    match cs with
    | [] => simp [findCloserF] at h
    | c :: rest =>
      have hw := takeWhileLen (fun x => x == '`') rest
      simp only [findCloserF] at h
      split at h
      · split at h
        · simp only [Option.some.injEq, Prod.mk.injEq] at h
          obtain ⟨hn, ht⟩ := h
          subst hn
          refine ⟨by omega, ?_⟩
          rw [← ht]
          simp only [List.length_drop, List.length_cons]
          omega
        · split at h
          case _ n0 t0 heq =>
            simp only [Option.some.injEq, Prod.mk.injEq] at h
            obtain ⟨hn, ht⟩ := h
            obtain ⟨ih1, ih2⟩ := ih _ n0 t0 heq
            simp only [List.length_drop] at ih2
            subst hn
            refine ⟨by omega, ?_⟩
            rw [← ht]
            simp only [List.length_cons]
            omega
          case _ heq => exact absurd h (by simp)
      · split at h
        case _ n0 t0 heq =>
          simp only [Option.some.injEq, Prod.mk.injEq] at h
          obtain ⟨hn, ht⟩ := h
          obtain ⟨ih1, ih2⟩ := ih rest n0 t0 heq
          subst hn
          refine ⟨by omega, ?_⟩
          rw [← ht]
          simp only [List.length_cons]
          omega
        case _ heq => exact absurd h (by simp)

theorem findSubstrIdx_le {pat : List Char} :
    ∀ {cs : List Char} {i : Nat},
      findSubstrIdx pat cs = some i → i + pat.length ≤ cs.length
  | [], i => by
    intro h
    simp only [findSubstrIdx] at h
    split at h
    · simp only [Option.some.injEq] at h
      subst h
      rename_i hp
      simp only [beq_iff_eq] at hp
      subst hp
      simp
    · exact absurd h (by simp)
  | c :: rest, i => by
    intro h
    simp only [findSubstrIdx] at h
    split at h
    · simp only [Option.some.injEq] at h
      subst h
      rename_i hp
      have := List.IsPrefix.length_le (List.isPrefixOf_iff_prefix.mp hp)
      simpa using this
    · split at h
      case _ j hf =>
        simp only [Option.some.injEq] at h
        subst h
        have ih : j + pat.length ≤ rest.length := findSubstrIdx_le hf
        simp only [List.length_cons]
        omega
      case _ hf => exact absurd h (by simp)

theorem replaceAllF_congr (pat repl : List Char) :
    ∀ (f1 f2 : Nat) (cs : List Char), cs.length ≤ f1 → cs.length ≤ f2 →
      replaceAllF pat repl f1 cs = replaceAllF pat repl f2 cs := by
  intro f1
  induction f1 with
  | zero =>
    intro f2 cs h1 _
    have : cs = [] := List.length_eq_zero.mp (Nat.le_zero.mp h1)
    subst this
    cases f2 <;> simp [replaceAllF]
  | succ f1 ih =>
    intro f2 cs h1 h2
    match cs with
    | [] => cases f2 <;> simp [replaceAllF]
    | c :: rest =>
      match f2 with
      | 0 => simp at h2
      | f2 + 1 =>
        simp only [List.length_cons] at h1 h2
        simp only [replaceAllF]
        split
        · rename_i hp
          have hpos : 0 < pat.length := by
            rcases Bool.and_eq_true_iff.mp hp with ⟨_, hne⟩
            simp only [Bool.not_eq_true', List.isEmpty_iff] at hne
            have : pat ≠ [] := by
              intro hc
              rw [hc] at hne
              simp at hne
            exact List.length_pos.mpr this
          have hd : ((c :: rest).drop pat.length).length ≤ f1 := by
            simp only [List.length_drop, List.length_cons]
            omega
          have hd2 : ((c :: rest).drop pat.length).length ≤ f2 := by
            simp only [List.length_drop, List.length_cons]
            omega
          rw [ih f2 _ hd hd2]
        · rw [ih f2 rest (by omega) (by omega)]

theorem replaceAll_cons_pos {pat : List Char} (repl : List Char) {c : Char}
    {rest : List Char} (hp : pat.isPrefixOf (c :: rest) = true) (hne : pat ≠ []) :
    replaceAll pat repl (c :: rest) =
      repl ++ replaceAll pat repl ((c :: rest).drop pat.length) := by
  have hpos : 0 < pat.length := List.length_pos.mpr hne
  have hguard : (pat.isPrefixOf (c :: rest) && !pat.isEmpty) = true := by
    have : pat.isEmpty = false := by
      rw [Bool.eq_false_iff]
      intro hc
      exact hne (List.isEmpty_iff.mp hc)
    simp [hp, this]
  unfold replaceAll
  simp only [replaceAllF, List.length_cons, hguard, if_true]
  congr 1
  exact replaceAllF_congr pat repl rest.length ((c :: rest).drop pat.length).length _
    (by simp only [List.length_drop, List.length_cons]; omega) le_rfl

theorem replaceAll_cons_neg {pat : List Char} (repl : List Char) {c : Char}
    {rest : List Char} (hp : pat.isPrefixOf (c :: rest) = false) :
    replaceAll pat repl (c :: rest) = c :: replaceAll pat repl rest := by
  unfold replaceAll
  simp [replaceAllF, hp]

theorem univNewlines_cons_ne {c : Char} (hc : c ≠ '\r') (xs : List Char) :
    univNewlines (c :: xs) = c :: univNewlines xs := by
  cases xs with
  | nil => simp [univNewlines, hc]
  | cons d rest => simp [univNewlines, hc]

theorem univNewlines_cr_not_nl {rest : List Char} (h : rest.head? ≠ some '\n') :
    univNewlines ('\r' :: rest) = '\n' :: univNewlines rest := by
  cases rest with
  | nil => rfl
  | cons d r2 =>
    have hd : d ≠ '\n' := by
      intro hcon
      exact h (by simp [hcon])
    simp [univNewlines, hd]

theorem replace_crlf_cr_eq_univ : ∀ t : List Char,
    replaceAll ['\r'] ['\n'] (replaceAll ['\r', '\n'] ['\n'] t) = univNewlines t := by
  intro t
  induction t using univNewlines.induct with
  | case1 => rfl
  | case2 rest ih =>
    rw [replaceAll_cons_pos _ (by simp [List.isPrefixOf]) (by simp)]
    simp only [List.length_cons, List.length_nil, List.drop_succ_cons, List.drop_zero,
      List.cons_append, List.nil_append]
    rw [replaceAll_cons_neg _ (by simp [List.isPrefixOf])]
    rw [ih]
    simp [univNewlines]
  | case3 rest hne ih =>
    have hh : rest.head? ≠ some '\n' := by
      intro hcon
      cases rest with
      | nil => simp at hcon
      | cons d r2 =>
        simp only [List.head?_cons, Option.some.injEq] at hcon
        exact hne r2 (by rw [hcon])
    have hnp : (['\r', '\n'] : List Char).isPrefixOf ('\r' :: rest) = false := by
      cases rest with
      | nil => simp [List.isPrefixOf]
      | cons d r2 =>
        have hd : d ≠ '\n' := by
          intro hcon
          exact hne r2 (by rw [hcon])
        simp [List.isPrefixOf, Ne.symm hd]
    rw [replaceAll_cons_neg _ hnp]
    rw [replaceAll_cons_pos _ (by simp [List.isPrefixOf]) (by simp)]
    simp only [List.length_cons, List.length_nil, List.drop_succ_cons, List.drop_zero,
      List.cons_append, List.nil_append]
    rw [ih, univNewlines_cr_not_nl hh]
  | case4 c rest h1 h2 ih =>
    have hc : c ≠ '\r' := fun h => h2 h
    rw [replaceAll_cons_neg _ (by simp [List.isPrefixOf, Ne.symm hc])]
    rw [replaceAll_cons_neg _ (by simp [List.isPrefixOf, Ne.symm hc])]
    rw [ih, univNewlines_cons_ne hc]

/-- A line-break-free line passes through `univNewlines` unchanged. -/
theorem univNewlines_append_clean {l : List Char} (hl : ∀ c ∈ l, c ≠ '\r')
    (s : List Char) : univNewlines (l ++ s) = l ++ univNewlines s := by
  induction l with
  | nil => simp
  | cons c rest ih =>
    have hc : c ≠ '\r' := hl c (by simp)
    simp only [List.cons_append]
    rw [univNewlines_cons_ne hc]
    rw [ih (fun d hd => hl d (by simp [hd]))]

/-- One rendered line ending normalizes to a single LF, provided a lone CR
ending is not immediately followed by a LF character. -/
theorem univNewlines_conv {conv : List Char}
    (hconv : conv = ['\n'] ∨ conv = ['\r'] ∨ conv = ['\r', '\n'])
    {s : List Char} (hs : conv = ['\r'] → s.head? ≠ some '\n') :
    univNewlines (conv ++ s) = '\n' :: univNewlines s := by
  rcases hconv with h | h | h
  · subst h
    simp only [List.cons_append, List.nil_append]
    exact univNewlines_cons_ne (by decide) s
  · subst h
    simp only [List.cons_append, List.nil_append]
    exact univNewlines_cr_not_nl (hs rfl)
  · subst h
    simp [univNewlines]

/-- With a lone-CR convention the rendered text never contains a LF. -/
theorem renderLines_head_no_nl {fin : Bool}
    (hclean : ∀ l ∈ L, ∀ c ∈ l, c ≠ '\r' ∧ c ≠ '\n') :
    (renderLines ['\r'] fin L).head? ≠ some '\n' := by
  induction L with
  | nil =>
    cases fin <;> simp [renderLines]
  | cons l rest ih =>
    cases rest with
    | nil =>
      cases l with
      | nil => cases fin <;> simp [renderLines]
      | cons c cs =>
        have := (hclean (c :: cs) (by simp) c (by simp)).2
        simp [renderLines, this]
    | cons r2 rest2 =>
      cases l with
      | nil =>
        simp [renderLines]
      | cons c cs =>
        have := (hclean (c :: cs) (by simp) c (by simp)).2
        simp [renderLines, this]

/-- Rendered text, with all breaks normalized, is the canonical LF join
plus an optional trailing LF. -/
theorem univNewlines_renderLines {conv : List Char}
    (hconv : conv = ['\n'] ∨ conv = ['\r'] ∨ conv = ['\r', '\n']) (fin : Bool) :
    ∀ L : List (List Char), (∀ l ∈ L, ∀ c ∈ l, c ≠ '\r' ∧ c ≠ '\n') →
      univNewlines (renderLines conv fin L) =
        canonicalNl L ++ (if fin then ['\n'] else []) := by
  have hunivconv : univNewlines conv = ['\n'] := by
    rcases hconv with h | h | h <;> subst h <;> rfl
  intro L
  induction L with
  | nil =>
    intro _
    cases fin
    · simp [renderLines, canonicalNl, univNewlines]
    · simpa [renderLines, canonicalNl] using hunivconv
  | cons l rest ih =>
    intro hclean
    have hl : ∀ c ∈ l, c ≠ '\r' := fun c hc => (hclean l (by simp) c hc).1
    cases rest with
    | nil =>
      show univNewlines (l ++ (if fin then conv else [])) = _
      rw [univNewlines_append_clean hl]
      cases fin
      · simp [canonicalNl, univNewlines]
      · simpa [canonicalNl] using hunivconv
    | cons r2 rest2 =>
      show univNewlines (l ++ conv ++ renderLines conv fin (r2 :: rest2)) = _
      have hcleanRest : ∀ m ∈ r2 :: rest2, ∀ c ∈ m, c ≠ '\r' ∧ c ≠ '\n' := by
        intro m hm c hc
        exact hclean m (by simp [hm]) c hc
      rw [List.append_assoc, univNewlines_append_clean hl]
      rw [univNewlines_conv hconv (fun hcr => by
        rw [hcr] at *
        exact renderLines_head_no_nl hcleanRest)]
      rw [ih hcleanRest]
      show l ++ '\n' :: (canonicalNl (r2 :: rest2) ++ _) = _
      show _ = (l ++ '\n' :: canonicalNl (r2 :: rest2)) ++ _
      simp

theorem getLast?_mem_local : ∀ {l : List Char} {c : Char}, l.getLast? = some c → c ∈ l
  | [], c => by simp
  | [a], c => by
    intro h
    simp only [List.getLast?_singleton, Option.some.injEq] at h
    simp [h]
  | a :: b :: l, c => by
    intro h
    rw [List.getLast?_cons_cons] at h
    have := getLast?_mem_local h
    simp [this]

theorem getLast?_cons_ne_nil {l : List Char} (a : Char) (h : l ≠ []) :
    (a :: l).getLast? = l.getLast? := by
  cases l with
  | nil => exact absurd rfl h
  | cons b l2 => exact List.getLast?_cons_cons

/-- The canonical LF join of clean lines whose last line is nonempty never
ends with a LF. -/
theorem canonicalNl_getLast_ne_nl :
    ∀ L : List (List Char), (∀ l ∈ L, ∀ c ∈ l, c ≠ '\r' ∧ c ≠ '\n') →
      L.getLast? ≠ some ([] : List Char) →
      ∀ c, (canonicalNl L).getLast? = some c → c ≠ '\n' := by
  intro L
  induction L with
  | nil =>
    intro _ _ c hc
    simp [canonicalNl] at hc
  | cons l rest ih =>
    intro hclean hlast c hc
    cases rest with
    | nil =>
      simp only [canonicalNl] at hc
      have hmem : c ∈ l := getLast?_mem_local hc
      exact (hclean l (by simp) c hmem).2
    | cons r2 rest2 =>
      simp only [canonicalNl] at hc
      have hlast2 : (r2 :: rest2).getLast? ≠ some ([] : List Char) := by
        simpa [List.getLast?_cons_cons] using hlast
      have hcleanRest : ∀ m ∈ r2 :: rest2, ∀ d ∈ m, d ≠ '\r' ∧ d ≠ '\n' := by
        intro m hm d hd
        exact hclean m (by simp [hm]) d hd
      have hne : canonicalNl (r2 :: rest2) ≠ [] := by
        intro hnil
        cases rest2 with
        | nil =>
          simp only [canonicalNl] at hnil
          exact hlast2 (by simp [hnil])
        | cons r3 rest3 =>
          simp only [canonicalNl] at hnil
          exact absurd hnil (by simp)
      rw [List.getLast?_append_cons] at hc
      rw [getLast?_cons_ne_nil '\n' hne] at hc
      exact ih hcleanRest hlast2 c hc

theorem normalize_eq_univ (t : List Char) :
    normalize_text_for_hash t =
      (if (univNewlines t).getLast? == some '\n' then univNewlines t
       else univNewlines t ++ ['\n']) := by
  simp only [normalize_text_for_hash]
  rw [replace_crlf_cr_eq_univ t]

theorem normalize_renderLines_canonical {conv : List Char}
    (hconv : conv = ['\n'] ∨ conv = ['\r'] ∨ conv = ['\r', '\n'])
    (fin : Bool) (L : List (List Char))
    (hclean : ∀ l ∈ L, ∀ c ∈ l, c ≠ '\r' ∧ c ≠ '\n')
    (hlast : L.getLast? ≠ some ([] : List Char)) :
    normalize_text_for_hash (renderLines conv fin L) = canonicalNl L ++ ['\n'] := by
  rw [normalize_eq_univ]
  rw [univNewlines_renderLines hconv fin L hclean]
  cases fin
  · have hprop : ¬(canonicalNl L).getLast? = some '\n' := by
      cases hX : (canonicalNl L).getLast? with
      | none => simp
      | some c =>
        have := canonicalNl_getLast_ne_nl L hclean hlast c hX
        simp [this]
    simp [List.append_nil, hprop]
  · have hcond : ((canonicalNl L ++ ['\n']).getLast? == some '\n') = true := by
      rw [List.getLast?_append_cons]
      simp
    simp [hcond]

/-- C10: two texts with the same logical lines, one rendered with line
ending convention `conv1` (LF, CR or CRLF) and with or without a final
newline, the other with convention `conv2` likewise, normalize to the same
bytes under `normalize_text_for_hash` — hence their `sha256:` content
hashes agree. -/
theorem c10_normalize_line_ending_invariant (L : List (List Char))
    (conv1 conv2 : List Char) (fin1 fin2 : Bool)
    (hclean : ∀ l ∈ L, ∀ c ∈ l, c ≠ '\r' ∧ c ≠ '\n')
    (hc1 : conv1 = ['\n'] ∨ conv1 = ['\r'] ∨ conv1 = ['\r', '\n'])
    (hc2 : conv2 = ['\n'] ∨ conv2 = ['\r'] ∨ conv2 = ['\r', '\n'])
    (hlast : L.getLast? ≠ some ([] : List Char)) :
    normalize_text_for_hash (renderLines conv1 fin1 L) =
      normalize_text_for_hash (renderLines conv2 fin2 L) := by
  rw [normalize_renderLines_canonical hc1 fin1 L hclean hlast]
  rw [normalize_renderLines_canonical hc2 fin2 L hclean hlast]

/-- Witness for C10 at a concrete input: `"a\r\nb"` (CRLF, no final newline)
and `"a\nb\n"` (LF, final newline) normalize identically. -/
theorem c10_normalize_line_ending_invariant_witness :
    normalize_text_for_hash "a\r\nb".toList = normalize_text_for_hash "a\nb\n".toList := by
  have h := c10_normalize_line_ending_invariant [['a'], ['b']] ['\r', '\n'] ['\n']
    false true (by decide) (by decide) (by decide) (by decide)
  have e1 : renderLines ['\r', '\n'] false [['a'], ['b']] = "a\r\nb".toList := by decide
  have e2 : renderLines ['\n'] true [['a'], ['b']] = "a\nb\n".toList := by decide
  rw [e1, e2] at h
  exact h

/-- C1: for a document under `docs/prd/` or `docs/epics/` whose basename is
not `_template.md`: if the status pattern matches the text after fenced-code
stripping followed by HTML-comment stripping but not the fully sanitized
text, `lint_status_format` returns exactly one finding (the misplaced
indentation message); in every other case it returns no findings. -/
theorem c1_lint_status_format_differential (relPath text : List Char)
    (hpre : "docs/prd/".toList.isPrefixOf relPath = true ∨
      "docs/epics/".toList.isPrefixOf relPath = true)
    (hbase : pyBasename relPath ≠ "_template.md".toList) :
    (statusAnyMatch (strip_html_comment_blocks (strip_fenced_code_blocks text)) = true ∧
        statusAnyMatch (sanitize_status_text text) = false →
      lint_status_format relPath text = [⟨relPath, statusFormatMessage⟩]) ∧
    (¬(statusAnyMatch (strip_html_comment_blocks (strip_fenced_code_blocks text)) = true ∧
        statusAnyMatch (sanitize_status_text text) = false) →
      lint_status_format relPath text = []) := by
  constructor
  · rintro ⟨ha, hb⟩
    unfold lint_status_format
    split
    · rename_i hcond
      exfalso
      rcases hpre with h | h <;> rw [h] at hcond <;> simp at hcond
    · split
      · rename_i hbaseEq
        exact absurd (by simpa using hbaseEq) hbase
      · simp [ha, hb]
  · intro hn
    have hcond : (statusAnyMatch (strip_html_comment_blocks (strip_fenced_code_blocks text)) &&
        !statusAnyMatch (sanitize_status_text text)) = false := by
      cases hA : statusAnyMatch (strip_html_comment_blocks (strip_fenced_code_blocks text)) <;>
        cases hB : statusAnyMatch (sanitize_status_text text) <;> simp_all
    unfold lint_status_format
    split
    · rfl
    · split
      · rfl
      · simp [hcond]

/-- Witness for C1 at a concrete input: an indented status line in a
`docs/prd/` document yields exactly the misplaced-indentation finding. -/
theorem c1_lint_status_format_differential_witness :
    lint_status_format "docs/prd/a.md".toList "    - ステータス: Approved\n".toList =
      [⟨"docs/prd/a.md".toList, statusFormatMessage⟩] :=
  (c1_lint_status_format_differential "docs/prd/a.md".toList
      "    - ステータス: Approved\n".toList (Or.inl (by decide)) (by decide)).1
    (by constructor <;> decide)

theorem dedupFirstAux_nodup : ∀ (l seen : List Nat),
    (dedupFirstAux seen l).Nodup ∧ ∀ v ∈ dedupFirstAux seen l, v ∉ seen := by
  intro l
  induction l with
  | nil => intro seen; simp [dedupFirstAux]
  | cons v rest ih =>
    intro seen
    simp only [dedupFirstAux]
    split
    · rename_i hv
      refine ⟨(ih seen).1, (ih seen).2⟩
    · rename_i hv
      have hv2 : v ∉ seen := by
        intro hc
        exact hv (by simpa using hc)
      refine ⟨?_, ?_⟩
      · refine List.nodup_cons.mpr ⟨?_, (ih (v :: seen)).1⟩
        intro hc
        exact (ih (v :: seen)).2 v hc (by simp)
      · intro w hw
        rcases List.mem_cons.mp hw with h | h
        · exact h ▸ hv2
        · intro hc
          exact (ih (v :: seen)).2 w h (by simp [hc])

theorem dedupFirstAux_mem : ∀ (l seen : List Nat) (v : Nat),
    v ∈ dedupFirstAux seen l ↔ v ∈ l ∧ v ∉ seen := by
  intro l
  induction l with
  | nil => intro seen v; simp [dedupFirstAux]
  | cons w rest ih =>
    intro seen v
    simp only [dedupFirstAux]
    split
    · rename_i hw
      rw [ih seen v]
      have hwseen : w ∈ seen := by simpa using hw
      constructor
      · rintro ⟨h1, h2⟩
        exact ⟨by simp [h1], h2⟩
      · rintro ⟨h1, h2⟩
        rcases List.mem_cons.mp h1 with h | h
        · exact absurd (h ▸ hwseen) h2
        · exact ⟨h, h2⟩
    · rename_i hw
      have hwseen : w ∉ seen := fun hc => hw (by simpa using hc)
      constructor
      · intro h
        rcases List.mem_cons.mp h with h | h
        · exact ⟨by simp [h], h ▸ hwseen⟩
        · have := (ih (w :: seen) v).mp h
          refine ⟨by simp [this.1], ?_⟩
          intro hc
          exact this.2 (by simp [hc])
      · rintro ⟨h1, h2⟩
        rcases List.mem_cons.mp h1 with h | h
        · simp [h]
        · by_cases hvw : v = w
          · simp [hvw]
          · refine List.mem_cons.mpr (Or.inr ?_)
            exact (ih (w :: seen) v).mpr ⟨h, by simp [hvw, h2]⟩

theorem maskInlineF_nil (fuel : Nat) : maskInlineF fuel [] = [] := by
  cases fuel <;> rfl

theorem dropWhile_eq_drop_takeWhile (p : Char → Bool) :
    ∀ l : List Char, l.dropWhile p = l.drop (l.takeWhile p).length := by
  intro l
  induction l with
  | nil => simp
  | cons c rest ih =>
    by_cases hc : p c = true
    · rw [List.dropWhile_cons, if_pos hc, List.takeWhile_cons, if_pos hc]
      simp only [List.length_cons, List.drop_succ_cons]
      exact ih
    · rw [List.dropWhile_cons, if_neg hc, List.takeWhile_cons, if_neg hc]
      simp

theorem takeWhile_beq_replicate (ch : Char) :
    ∀ l : List Char, l.takeWhile (fun x => x == ch) =
      List.replicate (l.takeWhile (fun x => x == ch)).length ch := by
  intro l
  induction l with
  | nil => simp
  | cons c rest ih =>
    by_cases hc : c = ch
    · subst hc
      rw [List.takeWhile_cons, if_pos (by simp)]
      simp only [List.length_cons, List.replicate_succ]
      exact congrArg (List.cons _) ih
    · simp [List.takeWhile_cons, hc]

theorem blankedOf_refl : ∀ l : List Char, blankedOf l l = true := by
  intro l
  induction l with
  | nil => rfl
  | cons c rest ih => simp [blankedOf, ih]

theorem blankedOf_append :
    ∀ {m1 c1 m2 c2 : List Char}, blankedOf m1 c1 = true → blankedOf m2 c2 = true →
      blankedOf (m1 ++ m2) (c1 ++ c2) = true := by
  intro m1
  induction m1 with
  | nil =>
    intro c1 m2 c2 h1 h2
    cases c1 with
    | nil => simpa using h2
    | cons d cs => simp [blankedOf] at h1
  | cons a ms ih =>
    intro c1 m2 c2 h1 h2
    cases c1 with
    | nil => simp [blankedOf] at h1
    | cons d cs =>
      simp only [blankedOf, Bool.and_eq_true] at h1
      simp only [List.cons_append, blankedOf, Bool.and_eq_true]
      exact ⟨h1.1, ih h1.2 h2⟩

theorem blankedOf_replicate_space :
    ∀ (l : List Char) (k : Nat), l.length = k →
      blankedOf (List.replicate k ' ') l = true := by
  intro l
  induction l with
  | nil =>
    intro k hk
    subst hk
    rfl
  | cons c rest ih =>
    intro k hk
    subst hk
    simp only [List.length_cons, List.replicate_succ, blankedOf, Bool.and_eq_true]
    exact ⟨by simp, ih rest.length rfl⟩

theorem findCloserF_drop (L : Nat) : ∀ (fuel : Nat) (cs : List Char),
    ∀ n t, findCloserF L fuel cs = some (n, t) → t = cs.drop n := by
  intro fuel
  induction fuel with
  | zero =>
    intro cs n t h
    cases cs <;> simp [findCloserF] at h
  | succ fuel ih =>
    intro cs n t h
    match cs with
    | [] => simp [findCloserF] at h
    | c :: rest =>
      simp only [findCloserF] at h
      split at h
      · split at h
        · simp only [Option.some.injEq, Prod.mk.injEq] at h
          obtain ⟨hn, ht⟩ := h
          subst hn
          rw [← ht]
          have hb : 1 + (List.takeWhile (fun x => x == '`') rest).length =
              (1 + (List.takeWhile (fun x => x == '`') rest).length - 1) + 1 := by omega
          conv_rhs => rw [hb]
          rw [List.drop_succ_cons]
        · split at h
          case _ n0 t0 heq =>
            simp only [Option.some.injEq, Prod.mk.injEq] at h
            obtain ⟨hn, ht⟩ := h
            have := ih _ n0 t0 heq
            subst hn
            rw [← ht, this, List.drop_drop]
            have hb : 1 + (List.takeWhile (fun x => x == '`') rest).length + n0 =
                (n0 + (1 + (List.takeWhile (fun x => x == '`') rest).length - 1)) + 1 := by
              omega
            conv_rhs => rw [hb]
            rw [List.drop_succ_cons]
            congr 1
            omega
          case _ heq => exact absurd h (by simp)
      · split at h
        case _ n0 t0 heq =>
          simp only [Option.some.injEq, Prod.mk.injEq] at h
          obtain ⟨hn, ht⟩ := h
          have := ih rest n0 t0 heq
          subst hn
          rw [← ht, this]
          have hb : 1 + n0 = n0 + 1 := Nat.add_comm _ _
          conv_rhs => rw [hb]
          rw [List.drop_succ_cons]
        case _ heq => exact absurd h (by simp)

theorem maskInlineF_cons_other (fuel : Nat) {c : Char} (hc1 : c ≠ '\\') (hc2 : c ≠ '`')
    (rest : List Char) : maskInlineF (fuel + 1) (c :: rest) = c :: maskInlineF fuel rest := by
  simp [maskInlineF, hc1, hc2]

theorem split_run (p : Char → Bool) (c : Char) (rest : List Char) :
    c :: rest = (c :: rest.takeWhile p) ++ rest.drop (rest.takeWhile p).length := by
  simp only [List.cons_append]
  congr 1
  rw [← dropWhile_eq_drop_takeWhile]
  exact (@List.takeWhile_append_dropWhile _ p rest).symm

theorem replicate_run_bs (rest : List Char) :
    List.replicate (1 + (rest.takeWhile (fun x => x == '\\')).length) '\\' =
      '\\' :: rest.takeWhile (fun x => x == '\\') := by
  have hb : 1 + (rest.takeWhile (fun x => x == '\\')).length =
      (rest.takeWhile (fun x => x == '\\')).length + 1 := Nat.add_comm _ _
  rw [hb, List.replicate_succ]
  exact congrArg (List.cons _) (takeWhile_beq_replicate '\\' rest).symm

theorem replicate_run_bt (rest : List Char) :
    List.replicate (1 + (rest.takeWhile (fun x => x == '`')).length) '`' =
      '`' :: rest.takeWhile (fun x => x == '`') := by
  have hb : 1 + (rest.takeWhile (fun x => x == '`')).length =
      (rest.takeWhile (fun x => x == '`')).length + 1 := Nat.add_comm _ _
  rw [hb, List.replicate_succ]
  exact congrArg (List.cons _) (takeWhile_beq_replicate '`' rest).symm

theorem blankedOf_maskBsTail {mf : List Char → List Char}
    (hmf : ∀ l, blankedOf (mf l) l = true) (nbs : Nat) :
    ∀ l, blankedOf (maskBsTail mf nbs l) l = true := by
  intro l
  rcases l with _ | ⟨d, r2⟩
  · exact hmf []
  by_cases hd : d = '`'
  · subst hd
    simp only [maskBsTail]
    by_cases hpar : (nbs % 2 == 1) = true
    · rw [if_pos hpar]
      simp only [blankedOf, Bool.and_eq_true]
      exact ⟨by simp, hmf r2⟩
    · rw [if_neg hpar]
      exact hmf ('`' :: r2)
  · have heq : maskBsTail mf nbs (d :: r2) = mf (d :: r2) := by
      simp [maskBsTail, hd]
    rw [heq]
    exact hmf (d :: r2)

theorem blankedOf_maskInlineF : ∀ (fuel : Nat) (cs : List Char),
    blankedOf (maskInlineF fuel cs) cs = true := by
  intro fuel
  induction fuel with
  | zero =>
    intro cs
    cases cs with
    | nil => rfl
    | cons c rest => exact blankedOf_refl _
  | succ fuel ih =>
    intro cs
    rcases cs with _ | ⟨c, rest⟩
    · rfl
    by_cases hc1 : c = '\\'
    · subst hc1
      simp only [maskInlineF, Nat.add_sub_cancel_left]
      rw [split_run (fun x => x == '\\') '\\' rest]
      rw [← replicate_run_bs rest]
      exact blankedOf_append (blankedOf_refl _) (blankedOf_maskBsTail ih _ _)
    · by_cases hc2 : c = '`'
      · subst hc2
        simp only [maskInlineF, Nat.add_sub_cancel_left]
        rw [split_run (fun x => x == '`') '`' rest]
        cases hF : findCloserF (1 + (rest.takeWhile (fun x => x == '`')).length)
            (rest.drop (rest.takeWhile (fun x => x == '`')).length).length
            (rest.drop (rest.takeWhile (fun x => x == '`')).length) with
        | none =>
          rw [← replicate_run_bt rest]
          exact blankedOf_append (blankedOf_refl _) (ih _)
        | some nt =>
          obtain ⟨hn1, hn2⟩ := findCloserF_length _ _ _ nt.1 nt.2 (by rw [hF])
          have hdrop := findCloserF_drop _ _ _ nt.1 nt.2 (by rw [hF])
          have hsp : ('`' :: rest.takeWhile (fun x => x == '`')) ++
                rest.drop (rest.takeWhile (fun x => x == '`')).length =
              (('`' :: rest.takeWhile (fun x => x == '`')) ++
                (rest.drop (rest.takeWhile (fun x => x == '`')).length).take nt.1) ++ nt.2 := by
            rw [List.append_assoc]
            congr 1
            rw [hdrop]
            exact (List.take_append_drop _ _).symm
          rw [hsp]
          refine blankedOf_append (blankedOf_replicate_space _ _ ?_) (ih nt.2)
          simp only [List.length_drop] at hn2
          simp only [List.length_append, List.length_cons, List.length_take, List.length_drop]
          omega
      · rw [maskInlineF_cons_other fuel hc1 hc2]
        simp only [blankedOf, Bool.and_eq_true]
        exact ⟨by simp, ih rest⟩

theorem pySplitLines_ne_nil : ∀ (c : Char) (rest : List Char), pySplitLines (c :: rest) ≠ [] := by
  intro c rest
  by_cases hc : c = '\r'
  · subst hc
    cases rest with
    | nil => simp [pySplitLines]
    | cons d r2 =>
      by_cases hd : d = '\n' <;> simp [pySplitLines, hd]
  · by_cases hb : isLineBreak c = true
    · rw [pySplitLines.eq_def]
      simp [hc, hb]
    · cases hres : pySplitLines rest with
      | nil =>
        rw [pySplitLines.eq_def]
        simp [hc, hb, hres]
      | cons l ls =>
        rw [pySplitLines.eq_def]
        simp [hc, hb, hres]

theorem pySplitLines_flatten : ∀ cs : List Char, (pySplitLines cs).flatten = cs := by
  intro cs
  induction cs using pySplitLines.induct with
  | case1 => rfl
  | case2 rest2 ih =>
    simp [pySplitLines, ih]
  | case3 d rest2 hd ih =>
    simp [pySplitLines, hd, ih]
  | case4 => rfl
  | case5 c rest hc hb ih =>
    rw [pySplitLines.eq_def]
    simp [hc, hb, ih]
  | case6 c rest hc hb hnil ih =>
    cases rest with
    | nil =>
      rw [pySplitLines.eq_def]
      simp [hc, hb, pySplitLines]
    | cons d r2 => exact absurd hnil (pySplitLines_ne_nil d r2)
  | case7 c rest hc hb l ls heq ih =>
    rw [heq] at ih
    simp only [List.flatten_cons] at ih
    rw [pySplitLines.eq_def]
    simp [hc, hb, heq, ih]

theorem maskInlineF_no_backtick : ∀ (fuel : Nat) (cs : List Char),
    (∀ c ∈ cs, c ≠ '`') → maskInlineF fuel cs = cs := by
  intro fuel
  induction fuel with
  | zero =>
    intro cs _
    cases cs <;> rfl
  | succ fuel ih =>
    intro cs hcs
    rcases cs with _ | ⟨c, rest⟩
    · rfl
    have hrest : ∀ x ∈ rest, x ≠ '`' := fun x hx => hcs x (by simp [hx])
    by_cases hc1 : c = '\\'
    · subst hc1
      simp only [maskInlineF, Nat.add_sub_cancel_left]
      have hdrop : ∀ x ∈ rest.drop (rest.takeWhile (fun x => x == '\\')).length, x ≠ '`' :=
        fun x hx => hrest x (List.mem_of_mem_drop hx)
      have htail : maskBsTail (maskInlineF fuel)
          (1 + (rest.takeWhile (fun x => x == '\\')).length)
          (rest.drop (rest.takeWhile (fun x => x == '\\')).length) =
          rest.drop (rest.takeWhile (fun x => x == '\\')).length := by
        cases hR : rest.drop (rest.takeWhile (fun x => x == '\\')).length with
        | nil => exact maskInlineF_nil fuel
        | cons d r2 =>
          have hd : d ≠ '`' := hdrop d (by rw [hR]; simp)
          have hstep : maskBsTail (maskInlineF fuel)
              (1 + (rest.takeWhile (fun x => x == '\\')).length) (d :: r2) =
              maskInlineF fuel (d :: r2) := by
            simp [maskBsTail, hd]
          rw [hstep]
          exact ih (d :: r2) (fun x hx => hdrop x (by rw [hR]; exact hx))
      rw [htail]
      conv_rhs => rw [split_run (fun x => x == '\\') '\\' rest]
      rw [← replicate_run_bs rest]
    · by_cases hc2 : c = '`'
      · exact absurd hc2 (hcs c (by simp))
      · rw [maskInlineF_cons_other fuel hc1 hc2]
        rw [ih rest hrest]

theorem maskInline_no_backtick {cs : List Char} (h : ∀ c ∈ cs, c ≠ '`') :
    maskInline cs = cs :=
  maskInlineF_no_backtick cs.length cs h

theorem stripFencedLines_all_none : ∀ L : List (List Char),
    (∀ l ∈ L, fenceOpen? l = none) → stripFencedLines none L = L := by
  intro L
  induction L with
  | nil => intro _; rfl
  | cons l rest ih =>
    intro h
    have h1 := h l (by simp)
    simp only [stripFencedLines, h1]
    rw [ih (fun m hm => h m (by simp [hm]))]

theorem spliceComments_no_comment (orig masked : List Char)
    (h : findSubstrIdx ['<', '!', '-', '-'] masked = none) :
    spliceComments orig masked = orig := by
  unfold spliceComments
  cases hm : masked.length with
  | zero => rfl
  | succ n => simp [spliceCommentsF, h]

theorem strip_html_comment_blocks_id (t : List Char) (h1 : ∀ c ∈ t, c ≠ '`')
    (h2 : findSubstrIdx ['<', '!', '-', '-'] t = none) :
    strip_html_comment_blocks t = t := by
  have hm : maskInline t = t := maskInline_no_backtick h1
  simp only [strip_html_comment_blocks]
  rw [hm, spliceComments_no_comment t t h2, hm, h2]

theorem strip_fenced_code_blocks_id (t : List Char)
    (h : ∀ l ∈ pySplitLines t, fenceOpen? l = none) :
    strip_fenced_code_blocks t = t := by
  unfold strip_fenced_code_blocks
  rw [stripFencedLines_all_none _ h, pySplitLines_flatten]

theorem strip_indented_code_blocks_id (t : List Char)
    (h : ∀ l ∈ pySplitLines t, indentedCode l = false) :
    strip_indented_code_blocks t = t := by
  unfold strip_indented_code_blocks
  have hf : (pySplitLines t).filter (fun l => !indentedCode l) = pySplitLines t := by
    rw [List.filter_eq_self]
    intro l hl
    simp [h l hl]
  rw [hf, pySplitLines_flatten]

/-- C4 (amended): the full sanitization pipeline is the identity on texts
with no backtick, no `<!--` occurrence, no line opening a tilde/backtick
fence, and no line starting with a tab or four or more spaces.  (The
original claim, without the last two conditions, is false: indented lines
and tilde fences are stripped even in backtick-free text.) -/
theorem c4_sanitize_identity (t : List Char)
    (hbt : ∀ c ∈ t, c ≠ '`')
    (hcm : findSubstrIdx ['<', '!', '-', '-'] t = none)
    (hfence : ∀ l ∈ pySplitLines t, fenceOpen? l = none)
    (hind : ∀ l ∈ pySplitLines t, indentedCode l = false) :
    sanitize_status_text t = t := by
  unfold sanitize_status_text
  rw [strip_fenced_code_blocks_id t hfence, strip_indented_code_blocks_id t hind,
    strip_html_comment_blocks_id t hbt hcm]

/-- Witness for C4 at a concrete input. -/
theorem c4_sanitize_identity_witness :
    sanitize_status_text "hello\nworld".toList = "hello\nworld".toList :=
  c4_sanitize_identity "hello\nworld".toList (by decide) (by decide) (by decide) (by decide)

/-- C4 counterexample: the text consisting of four spaces and `x` contains
no backtick and no `<!--`, yet the pipeline erases it entirely (indented
code stripping), so sanitization is not the identity there.  A tilde fence
line shows the same for tilde-only text. -/
theorem c4_counterexample :
    "    x".toList.contains '`' = false ∧
    findSubstrIdx ['<', '!', '-', '-'] "    x".toList = none ∧
    sanitize_status_text "    x".toList = [] ∧
    "    x".toList ≠ [] ∧
    "~~~\nkeep".toList.contains '`' = false ∧
    findSubstrIdx ['<', '!', '-', '-'] "~~~\nkeep".toList = none ∧
    sanitize_status_text "~~~\nkeep".toList = [] ∧
    "~~~\nkeep".toList ≠ [] := by
  decide

theorem maskInlineF_congr : ∀ (f1 f2 : Nat) (cs : List Char),
    cs.length ≤ f1 → cs.length ≤ f2 → maskInlineF f1 cs = maskInlineF f2 cs := by
  intro f1
  induction f1 with
  | zero =>
    intro f2 cs h1 _
    have : cs = [] := List.length_eq_zero.mp (Nat.le_zero.mp h1)
    subst this
    rw [maskInlineF_nil, maskInlineF_nil]
  | succ f1 ih =>
    intro f2 cs h1 h2
    rcases cs with _ | ⟨c, rest⟩
    · rw [maskInlineF_nil, maskInlineF_nil]
    match f2 with
    | 0 => simp at h2
    | f2 + 1 =>
      simp only [List.length_cons] at h1 h2
      have hw2 : (rest.takeWhile (fun x => x == '\\')).length ≤ rest.length :=
        takeWhileLen _ _
      have hw3 : (rest.takeWhile (fun x => x == '`')).length ≤ rest.length :=
        takeWhileLen _ _
      by_cases hc1 : c = '\\'
      · subst hc1
        simp only [maskInlineF, Nat.add_sub_cancel_left]
        congr 1
        cases hR : rest.drop (rest.takeWhile (fun x => x == '\\')).length with
        | nil =>
          have hnil : maskInlineF f1 ([] : List Char) = maskInlineF f2 [] := by
            rw [maskInlineF_nil, maskInlineF_nil]
          exact hnil
        | cons d r2 =>
          have hlen : (d :: r2).length ≤ rest.length := by
            rw [← hR]
            simp only [List.length_drop]
            omega
          simp only [List.length_cons] at hlen
          by_cases hd : d = '`'
          · subst hd
            simp only [maskBsTail]
            by_cases hpar :
                ((1 + (List.takeWhile (fun x => x == '\\') rest).length) % 2 == 1) = true
            · rw [if_pos hpar, if_pos hpar]
              rw [ih f2 r2 (by omega) (by omega)]
            · rw [if_neg hpar, if_neg hpar]
              have hle1 : ('`' :: r2).length ≤ f1 := by
                simp only [List.length_cons]
                omega
              have hle2 : ('`' :: r2).length ≤ f2 := by
                simp only [List.length_cons]
                omega
              exact ih f2 ('`' :: r2) hle1 hle2
          · have hstep1 : maskBsTail (maskInlineF f1)
                (1 + (List.takeWhile (fun x => x == '\\') rest).length) (d :: r2) =
                maskInlineF f1 (d :: r2) := by
              simp [maskBsTail, hd]
            have hstep2 : maskBsTail (maskInlineF f2)
                (1 + (List.takeWhile (fun x => x == '\\') rest).length) (d :: r2) =
                maskInlineF f2 (d :: r2) := by
              simp [maskBsTail, hd]
            rw [hstep1, hstep2]
            have hle1 : (d :: r2).length ≤ f1 := by
              simp only [List.length_cons]
              omega
            have hle2 : (d :: r2).length ≤ f2 := by
              simp only [List.length_cons]
              omega
            exact ih f2 (d :: r2) hle1 hle2
      · by_cases hc2 : c = '`'
        · subst hc2
          simp only [maskInlineF, Nat.add_sub_cancel_left]
          cases hF : findCloserF (1 + (rest.takeWhile (fun x => x == '`')).length)
              (rest.drop (rest.takeWhile (fun x => x == '`')).length).length
              (rest.drop (rest.takeWhile (fun x => x == '`')).length) with
          | none =>
            have hlen : (rest.drop (rest.takeWhile (fun x => x == '`')).length).length ≤
                rest.length := by
              simp only [List.length_drop]
              omega
            have hih := ih f2 (rest.drop (rest.takeWhile (fun x => x == '`')).length)
              (by omega) (by omega)
            show List.replicate (1 + (List.takeWhile (fun x => x == '`') rest).length) '`' ++
                maskInlineF f1 (rest.drop (rest.takeWhile (fun x => x == '`')).length) =
              List.replicate (1 + (List.takeWhile (fun x => x == '`') rest).length) '`' ++
                maskInlineF f2 (rest.drop (rest.takeWhile (fun x => x == '`')).length)
            rw [hih]
          | some nt =>
            obtain ⟨hn1, hn2⟩ := findCloserF_length _ _ _ nt.1 nt.2 (by rw [hF])
            simp only [List.length_drop] at hn2
            have hih := ih f2 nt.2 (by omega) (by omega)
            show List.replicate
                (1 + (List.takeWhile (fun x => x == '`') rest).length + nt.1) ' ' ++
                maskInlineF f1 nt.2 =
              List.replicate
                (1 + (List.takeWhile (fun x => x == '`') rest).length + nt.1) ' ' ++
                maskInlineF f2 nt.2
            rw [hih]
        · rw [maskInlineF_cons_other f1 hc1 hc2, maskInlineF_cons_other f2 hc1 hc2]
          rw [ih f2 rest (by omega) (by omega)]

theorem maskInlineF_adequate (f : Nat) (cs : List Char) (h : cs.length ≤ f) :
    maskInlineF f cs = maskInline cs :=
  maskInlineF_congr f cs.length cs h le_rfl

/-- Masking the escaped-backtick-then-comment-opener prefix leaves it
untouched and continues on the remainder. -/
theorem maskInlineF_c3_front (f : Nat) (X : List Char) :
    maskInlineF (f + 5) ('\\' :: '`' :: '<' :: '!' :: '-' :: '-' :: X) =
      '\\' :: '`' :: '<' :: '!' :: '-' :: '-' :: maskInlineF f X := by
  have h1 : maskInlineF (f + 5) ('\\' :: '`' :: '<' :: '!' :: '-' :: '-' :: X) =
      List.replicate 1 '\\' ++
        maskBsTail (maskInlineF (f + 4)) 1 ('`' :: '<' :: '!' :: '-' :: '-' :: X) := by
    simp +decide [maskInlineF, List.takeWhile_cons]
  rw [h1]
  have h2 : maskBsTail (maskInlineF (f + 4)) 1 ('`' :: '<' :: '!' :: '-' :: '-' :: X) =
      '`' :: maskInlineF (f + 4) ('<' :: '!' :: '-' :: '-' :: X) := by
    simp [maskBsTail]
  rw [h2]
  rw [maskInlineF_cons_other (f + 3) (by decide) (by decide)]
  rw [maskInlineF_cons_other (f + 2) (by decide) (by decide)]
  rw [maskInlineF_cons_other (f + 1) (by decide) (by decide)]
  rw [maskInlineF_cons_other f (by decide) (by decide)]
  rfl

theorem maskInline_c3_front (X : List Char) :
    maskInline ('\\' :: '`' :: '<' :: '!' :: '-' :: '-' :: X) =
      '\\' :: '`' :: '<' :: '!' :: '-' :: '-' :: maskInline X := by
  unfold maskInline
  have hl : ('\\' :: '`' :: '<' :: '!' :: '-' :: '-' :: X).length = (X.length + 1) + 5 := by
    simp only [List.length_cons]
  rw [hl, maskInlineF_c3_front (X.length + 1) X]
  rw [maskInlineF_congr (X.length + 1) X.length X (by omega) le_rfl]

theorem findSubstrIdx_c3_opener (Y : List Char) :
    findSubstrIdx ['<', '!', '-', '-'] ('\\' :: '`' :: '<' :: '!' :: '-' :: '-' :: Y) =
      some 2 := by
  simp +decide [findSubstrIdx, List.isPrefixOf]

theorem blanked_isPrefixOf : ∀ (pat m cs : List Char), blankedOf m cs = true →
    (∀ p ∈ pat, p ≠ ' ') → pat.isPrefixOf m = true → pat.isPrefixOf cs = true := by
  intro pat
  induction pat with
  | nil =>
    intro m cs _ _ _
    simp [List.isPrefixOf]
  | cons p ps ih =>
    intro m cs hb hsp hpre
    cases m with
    | nil => simp [List.isPrefixOf] at hpre
    | cons a ms =>
      cases cs with
      | nil => simp [blankedOf] at hb
      | cons c cs2 =>
        simp only [blankedOf, Bool.and_eq_true] at hb
        simp only [List.isPrefixOf, Bool.and_eq_true] at hpre ⊢
        obtain ⟨hpa, hrest⟩ := hpre
        refine ⟨?_, ih ms cs2 hb.2 (fun q hq => hsp q (by simp [hq])) hrest⟩
        obtain h1 | h1 := Bool.or_eq_true_iff.mp hb.1
        · simp only [beq_iff_eq] at hpa h1 ⊢
          rw [hpa, h1]
        · simp only [beq_iff_eq] at hpa h1
          exact absurd (by rw [hpa, h1]) (hsp p (by simp))

theorem findSubstrIdx_cons_none {pat : List Char} {c : Char} {cs : List Char}
    (h : findSubstrIdx pat (c :: cs) = none) :
    pat.isPrefixOf (c :: cs) = false ∧ findSubstrIdx pat cs = none := by
  rw [findSubstrIdx] at h
  split at h
  · exact absurd h (by simp)
  · rename_i hp
    constructor
    · rw [Bool.eq_false_iff]
      exact hp
    · split at h
      · exact absurd h (by simp)
      · assumption

theorem blanked_find_none {pat : List Char} (hpat : pat ≠ [])
    (hsp : ∀ p ∈ pat, p ≠ ' ') :
    ∀ m cs : List Char, blankedOf m cs = true →
      findSubstrIdx pat cs = none → findSubstrIdx pat m = none := by
  intro m
  induction m with
  | nil =>
    intro cs _ _
    rw [findSubstrIdx]
    rw [if_neg (by simpa using hpat)]
  | cons a ms ih =>
    intro cs hb hfind
    cases cs with
    | nil => simp [blankedOf] at hb
    | cons c cs2 =>
      obtain ⟨hnp, hrec⟩ := findSubstrIdx_cons_none hfind
      simp only [blankedOf, Bool.and_eq_true] at hb
      rw [findSubstrIdx]
      have hnpm : pat.isPrefixOf (a :: ms) = false := by
        rw [Bool.eq_false_iff]
        intro hc
        have := blanked_isPrefixOf pat (a :: ms) (c :: cs2)
          (by simp [blankedOf, hb.1, hb.2]) hsp hc
        rw [this] at hnp
        simp at hnp
      rw [if_neg (by simp [hnpm])]
      rw [ih cs2 hb.2 hrec]

theorem spliceComments_c3 (t maskX : List Char)
    (hnone : findSubstrIdx ['-', '-', '>'] maskX = none) :
    spliceComments t ('\\' :: '`' :: '<' :: '!' :: '-' :: '-' :: maskX) = t := by
  unfold spliceComments
  have hlen : ('\\' :: '`' :: '<' :: '!' :: '-' :: '-' :: maskX).length =
      (maskX.length + 5) + 1 := by
    simp only [List.length_cons]
  rw [hlen]
  simp only [spliceCommentsF, findSubstrIdx_c3_opener maskX]
  have hdrop : ('\\' :: '`' :: '<' :: '!' :: '-' :: '-' :: maskX).drop (2 + 4) = maskX := rfl
  rw [hdrop, hnone]

/-- C3: a backslash-escaped backtick immediately followed by a comment
opener `<!--` and arbitrary content with no `-->` closer: the escaped
backtick is not a span delimiter, the opener is not masked, and comment
stripping removes everything from the opener to the end of the text. -/
theorem c3_escaped_backtick_comment (X : List Char)
    (h : findSubstrIdx ['-', '-', '>'] X = none) :
    strip_html_comment_blocks ("\\`<!--".toList ++ X) = "\\`".toList := by
  have hT : "\\`<!--".toList ++ X = '\\' :: '`' :: '<' :: '!' :: '-' :: '-' :: X := by
    have : "\\`<!--".toList = ['\\', '`', '<', '!', '-', '-'] := by decide
    rw [this]
    rfl
  rw [hT]
  have hmaskNone : findSubstrIdx ['-', '-', '>'] (maskInline X) = none :=
    blanked_find_none (by decide) (by decide) (maskInline X) X
      (blankedOf_maskInlineF X.length X) h
  simp only [strip_html_comment_blocks]
  rw [maskInline_c3_front X]
  rw [spliceComments_c3 _ _ hmaskNone]
  rw [maskInline_c3_front X]
  rw [findSubstrIdx_c3_opener (maskInline X)]
  show List.take 2 ('\\' :: '`' :: '<' :: '!' :: '-' :: '-' :: X) = "\\`".toList
  have ht2 : List.take 2 ('\\' :: '`' :: '<' :: '!' :: '-' :: '-' :: X) = ['\\', '`'] := rfl
  rw [ht2]
  decide

/-- Witness for C3 at a concrete input. -/
theorem c3_escaped_backtick_comment_witness :
    strip_html_comment_blocks ("\\`<!--".toList ++ " secret rest".toList) = "\\`".toList :=
  c3_escaped_backtick_comment " secret rest".toList (by decide)

theorem stripFencedLines_append : ∀ (A : List (List Char)) (st : Option (Char × Nat))
    (B : List (List Char)),
    stripFencedLines st (A ++ B) =
      stripFencedLines st A ++ stripFencedLines (stateAfter st A) B := by
  intro A
  induction A with
  | nil =>
    intro st B
    cases st <;> rfl
  | cons l A2 ih =>
    intro st B
    cases st with
    | none =>
      cases h : fenceOpen? l with
      | some st2 =>
        simp only [List.cons_append, stripFencedLines, stateAfter, h, List.append_eq]
        exact ih (some st2) B
      | none =>
        simp only [List.cons_append, stripFencedLines, stateAfter, h, List.append_eq]
        rw [ih none B]
    | some st0 =>
      cases h : fenceClose? l with
      | some cn =>
        simp only [List.cons_append, stripFencedLines, stateAfter, h, List.append_eq]
        split
        · exact ih none B
        · exact ih (some st0) B
      | none =>
        simp only [List.cons_append, stripFencedLines, stateAfter, h, List.append_eq]
        exact ih (some st0) B

theorem stripFencedLines_inFence (c : Char) (n : Nat) : ∀ ls : List (List Char),
    stripFencedLines (some (c, n)) ls = stripFencedLines none (dropThroughCloser c n ls) := by
  intro ls
  induction ls with
  | nil => rfl
  | cons l rest ih =>
    cases h : fenceClose? l with
    | some cn =>
      by_cases hcl : (cn.1 == c && n ≤ cn.2) = true
      · have hc : isCloserFor c n l = true := by
          simp only [isCloserFor, h]
          exact hcl
        simp only [stripFencedLines, dropThroughCloser, h, hc, if_true, if_pos hcl]
      · have hc : isCloserFor c n l = false := by
          simp only [isCloserFor, h]
          simpa using hcl
        simp only [stripFencedLines, dropThroughCloser, h, hc, if_neg hcl, Bool.false_eq_true,
          if_false]
        exact ih
    | none =>
      have hc : isCloserFor c n l = false := by
        simp only [isCloserFor, h]
      simp only [stripFencedLines, dropThroughCloser, h, hc, Bool.false_eq_true, if_false]
      exact ih

/-- C6: if the lines of a text are a fence-free prefix `A`, then a line
opening a backtick fence of length 4, then `B`, then fenced stripping
keeps the kept lines of `A` and resumes only after the first line of `B`
closing a backtick fence with run length at least 4 — a line of exactly
three backticks is not such a closer, and every line up to and including
the closer (or all of `B` if none exists) is removed. -/
theorem c6_fence_length_matching (t : List Char) (A B : List (List Char))
    (opener : List Char)
    (hsplit : pySplitLines t = A ++ opener :: B)
    (hA : stateAfter none A = none)
    (hop : fenceOpen? opener = some ('`', 4)) :
    strip_fenced_code_blocks t =
      (stripFencedLines none A).flatten ++
        (stripFencedLines none (dropThroughCloser '`' 4 B)).flatten ∧
    isCloserFor '`' 4 "```\n".toList = false ∧
    (∀ l, isCloserFor '`' 4 l = true ↔ ∃ n2, fenceClose? l = some ('`', n2) ∧ 4 ≤ n2) := by
  refine ⟨?_, by decide, ?_⟩
  · unfold strip_fenced_code_blocks
    rw [hsplit, stripFencedLines_append A none (opener :: B), hA]
    simp only [stripFencedLines, hop]
    rw [stripFencedLines_inFence '`' 4 B]
    exact List.flatten_append _ _
  · intro l
    constructor
    · intro h
      simp only [isCloserFor] at h
      cases hf : fenceClose? l with
      | none => rw [hf] at h; simp at h
      | some cn =>
        rw [hf] at h
        simp only [Bool.and_eq_true, beq_iff_eq, decide_eq_true_eq] at h
        refine ⟨cn.2, ?_, h.2⟩
        cases cn with
        | mk c2 n2 =>
          simp only at h hf ⊢
          rw [h.1]
    · rintro ⟨n2, hf, hn⟩
      simp only [isCloserFor, hf]
      simp [hn]

/-- Witness for C6 at a concrete input: a 4-backtick fence is not closed
by a 3-backtick line. -/
theorem c6_fence_length_matching_witness :
    strip_fenced_code_blocks "x\n````\ny\n```\nz\n````\nw\n".toList =
      (stripFencedLines none ["x\n".toList]).flatten ++
        (stripFencedLines none (dropThroughCloser '`' 4
          ["y\n".toList, "```\n".toList, "z\n".toList, "````\n".toList,
            "w\n".toList])).flatten ∧
    isCloserFor '`' 4 "```\n".toList = false ∧
    (∀ l, isCloserFor '`' 4 l = true ↔ ∃ n2, fenceClose? l = some ('`', n2) ∧ 4 ≤ n2) :=
  c6_fence_length_matching "x\n````\ny\n```\nz\n````\nw\n".toList
    ["x\n".toList]
    ["y\n".toList, "```\n".toList, "z\n".toList, "````\n".toList, "w\n".toList]
    "````\n".toList (by decide) (by decide) (by decide)

/-- When every required key is present, `validate_review` is the header
and per-finding errors followed by the cross-field errors. -/
theorem validate_review_cross_append (obj : List (String × PyVal)) (expected : Option String)
    (hkeys : requiredReviewKeys.filter (fun k => !(dictKeys obj).contains k) = []) :
    validate_review obj expected =
      (reviewHeadErrs obj expected ++
        ((findingsOf obj).enum.map (fun p => findingErrs p.1 p.2)).flatten) ++
      cross_field_errors (pyGet obj "status") (findingsOf obj) (questionsOf obj) := by
  unfold validate_review
  rw [if_neg (fun h => h hkeys)]

/-- The Approved/findings cross-field error fires when findings is non-empty. -/
theorem cross_approved_findings_mem (fs qs : List PyVal) (h : fs ≠ []) :
    "Approved must have findings=[]" ∈ cross_field_errors (PyVal.pstr "Approved") fs qs := by
  have hc : pyEqStrLit (PyVal.pstr "Approved") "Approved" = true := rfl
  have hlen : fs.length ≠ 0 := fun hz => h (List.eq_nil_of_length_eq_zero hz)
  unfold cross_field_errors
  apply List.mem_append_left
  apply List.mem_append_left
  apply List.mem_append_left
  rw [if_pos hc]
  apply List.mem_append_left
  rw [if_pos hlen]
  exact List.mem_singleton_self _

/-- The Approved/questions cross-field error fires when questions is non-empty. -/
theorem cross_approved_questions_mem (fs qs : List PyVal) (h : qs ≠ []) :
    "Approved must have questions=[]" ∈ cross_field_errors (PyVal.pstr "Approved") fs qs := by
  have hc : pyEqStrLit (PyVal.pstr "Approved") "Approved" = true := rfl
  have hlen : qs.length ≠ 0 := fun hz => h (List.eq_nil_of_length_eq_zero hz)
  unfold cross_field_errors
  apply List.mem_append_left
  apply List.mem_append_left
  apply List.mem_append_left
  rw [if_pos hc]
  apply List.mem_append_right
  rw [if_pos hlen]
  exact List.mem_singleton_self _

/-- The Blocked cross-field error fires when no finding blocks. -/
theorem cross_blocked_mem (fs qs : List PyVal)
    (h : fs.all (fun f => !isBlockingFinding f) = true) :
    "Blocked must include at least one P0/P1 finding" ∈
      cross_field_errors (PyVal.pstr "Blocked") fs qs := by
  have hc : pyEqStrLit (PyVal.pstr "Blocked") "Blocked" = true := rfl
  have hfilter : fs.filter isBlockingFinding = [] := by
    apply List.filter_eq_nil_iff.mpr
    intro a ha
    have hx := List.all_eq_true.mp h a ha
    simp only [Bool.not_eq_true'] at hx
    simp [hx]
  unfold cross_field_errors
  apply List.mem_append_left
  apply List.mem_append_right
  rw [if_pos hc]
  rw [if_pos (by rw [hfilter]; rfl)]
  exact List.mem_singleton_self _

/-- C9: for any review object with all required keys present, the
cross-field section of `validate_review` reports an error whenever the
status is Approved and the findings list or the (string) questions list
is non-empty, and whenever the status is Blocked and no finding is a
dict with priority P0 or P1; and for an Approved record with empty
findings and questions the cross-field checks contribute no error. -/
theorem c9_validate_review_cross_field (obj : List (String × PyVal)) (expected : Option String)
    (hkeys : requiredReviewKeys.filter (fun k => !(dictKeys obj).contains k) = []) :
    (pyGet obj "status" = PyVal.pstr "Approved" →
      (∀ fs, pyGet obj "findings" = PyVal.plist fs → fs ≠ [] →
        "Approved must have findings=[]" ∈ validate_review obj expected) ∧
      (∀ qs, pyGet obj "questions" = PyVal.plist qs → qs ≠ [] →
        qs.all isStrVal = true →
        "Approved must have questions=[]" ∈ validate_review obj expected)) ∧
    (pyGet obj "status" = PyVal.pstr "Blocked" →
      ∀ fs, pyGet obj "findings" = PyVal.plist fs →
        fs.all (fun f => !isBlockingFinding f) = true →
        "Blocked must include at least one P0/P1 finding" ∈ validate_review obj expected) ∧
    cross_field_errors (PyVal.pstr "Approved") [] [] = [] := by
  refine ⟨?_, ?_, rfl⟩
  · intro hstatus
    constructor
    · intro fs hf hne
      rw [validate_review_cross_append obj expected hkeys]
      apply List.mem_append_right
      rw [hstatus]
      have hfs : findingsOf obj = fs := by simp [findingsOf, hf]
      rw [hfs]
      exact cross_approved_findings_mem fs (questionsOf obj) hne
    · intro qs hq hne hall
      rw [validate_review_cross_append obj expected hkeys]
      apply List.mem_append_right
      rw [hstatus]
      have hqs : questionsOf obj = qs := by simp [questionsOf, hq, hall]
      rw [hqs]
      exact cross_approved_questions_mem (findingsOf obj) qs hne
  · intro hstatus fs hf hall
    rw [validate_review_cross_append obj expected hkeys]
    apply List.mem_append_right
    rw [hstatus]
    have hfs : findingsOf obj = fs := by simp [findingsOf, hf]
    rw [hfs]
    exact cross_blocked_mem fs (questionsOf obj) hall

/-- Witness for C9 at two concrete review objects. -/
theorem c9_validate_review_cross_field_witness :
    "Approved must have findings=[]" ∈ validate_review c9objA (some "s1") ∧
    "Approved must have questions=[]" ∈ validate_review c9objA (some "s1") ∧
    "Blocked must include at least one P0/P1 finding" ∈ validate_review c9objB none := by
  refine ⟨?_, ?_, ?_⟩
  · exact ((c9_validate_review_cross_field c9objA (some "s1") (by decide)).1 rfl).1
      [PyVal.pint 0] rfl (List.cons_ne_nil _ _)
  · exact ((c9_validate_review_cross_field c9objA (some "s1") (by decide)).1 rfl).2
      [PyVal.pstr "q"] rfl (List.cons_ne_nil _ _) rfl
  · exact (c9_validate_review_cross_field c9objB none (by decide)).2.1 rfl
      [PyVal.pdict [("priority", PyVal.pstr "P2")]] rfl rfl

/-- A document repeating 候補-1 yields two finditer matches with the same
number: the minimum-of-5 rule reports a detected count of 2, while
`_unique_ints` would collapse the duplicate to one entry. -/
theorem c7_counterexample :
    candNumbers (contract_text "候補-1\nA\n候補-1\nB\n".toList) = [1, 1] ∧
    candidate_count_errs "候補-1\nA\n候補-1\nB\n".toList =
      ["調査ドキュメントには候補（候補-1..）を 5件以上含めてください。 検出件数: 2"] ∧
    unique_ints [some 1, some 1] = [1] := by
  refine ⟨by decide, ?_, by decide⟩
  rfl

/-- C7 (amended): `_unique_ints` lists each extracted number at most once
(first occurrence wins) in ascending order regardless of document order;
the candidate-block (候補-N) count used by the minimum-of-5 rule, however,
counts raw finditer matches, so a duplicated number is counted once per
occurrence. -/
theorem c7_extracted_blocks (ms : List (Option Nat)) :
    (unique_ints ms).Nodup ∧
    (unique_ints ms).Sorted (· ≤ ·) ∧
    (∀ v, v ∈ unique_ints ms ↔ some v ∈ ms) ∧
    candNumbers (contract_text "候補-1\nA\n候補-1\nB\n".toList) = [1, 1] ∧
    candidate_count_errs "候補-1\nA\n候補-1\nB\n".toList =
      ["調査ドキュメントには候補（候補-1..）を 5件以上含めてください。 検出件数: 2"] := by
  have hperm := List.perm_insertionSort (fun a b : Nat => a ≤ b)
    (dedupFirstAux [] (ms.filterMap id))
  refine ⟨?_, ?_, ?_, by decide, by rfl⟩
  · exact hperm.symm.nodup (dedupFirstAux_nodup (ms.filterMap id) []).1
  · exact List.sorted_insertionSort (fun a b : Nat => a ≤ b) _
  · intro v
    unfold unique_ints
    rw [hperm.mem_iff, dedupFirstAux_mem]
    simp

/-- Lines not starting with a pipe are skipped by the header scan. -/
theorem findTableCount_skip (required : List (List Char)) :
    ∀ (pre ls : List (List Char)), (∀ l ∈ pre, ¬(pyStrip l).head? = some '|') →
      findTableCount required (pre ++ ls) = findTableCount required ls := by
  intro pre
  induction pre with
  | nil => intro ls _; rfl
  | cons l rest ih =>
    intro ls hpre
    have hl : ¬(pyStrip l).head? = some '|' := hpre l (List.mem_cons_self l rest)
    simp only [List.cons_append, findTableCount, if_neg hl]
    exact ih ls fun x hx => hpre x (List.mem_cons_of_mem l hx)

/-- A table body of one alignment row, two counted data rows and a
non-table tail counts exactly two data rows. -/
theorem countRowsLoop_two (cols : Nat) (al r1 r2 : List Char) (rest : List (List Char))
    (halignPipe : (pyStrip al).head? = some '|') (halign : alignRowB (pyStrip al) = true)
    (hr1p : (pyStrip r1).head? = some '|') (hr1a : alignRowB (pyStrip r1) = false)
    (hr1w : (parse_table_cells (pyStrip r1)).length = cols)
    (hr2p : (pyStrip r2).head? = some '|') (hr2a : alignRowB (pyStrip r2) = false)
    (hr2w : (parse_table_cells (pyStrip r2)).length = cols)
    (hrest : ∀ l, rest.head? = some l → ¬(pyStrip l).head? = some '|') :
    countRowsLoop cols (al :: r1 :: r2 :: rest) = 2 := by
  have htail : countRowsLoop cols rest = 0 := by
    cases rest with
    | nil => rfl
    | cons l rs =>
      have hl := hrest l rfl
      simp only [countRowsLoop, if_neg hl]
  simp only [countRowsLoop, halignPipe, halign, hr1p, hr1a, hr1w, hr2p, hr2a, hr2w,
    if_true, if_false, htail]
  simp

/-- C8 (amended): a section whose 定量比較表 block is a table with a
header row containing every required column, one alignment row and
exactly two data rows of matching width yields a detected count of 2 and
exactly one Finding, whose message is the fixed fewer-than-three-rows
string; that message contains no digit 2, so the detected count is not
reported. -/
theorem c8_table_rule (sec : List Char)
    (pre : List (List Char)) (header al r1 r2 : List Char) (rest : List (List Char))
    (hsplit : splitlinesNoEnd
        (extract_labeled_block sec "定量比較表:".toList ["判定理由:".toList]) =
      pre ++ header :: al :: r1 :: r2 :: rest)
    (hpre : ∀ l ∈ pre, ¬(pyStrip l).head? = some '|')
    (hheadPipe : (pyStrip header).head? = some '|')
    (hreq : requiredTableCols.all
      (fun h => (parse_table_cells (pyStrip header)).contains h) = true)
    (halignPipe : (pyStrip al).head? = some '|') (halign : alignRowB (pyStrip al) = true)
    (hr1p : (pyStrip r1).head? = some '|') (hr1a : alignRowB (pyStrip r1) = false)
    (hr1w : (parse_table_cells (pyStrip r1)).length =
      (parse_table_cells (pyStrip header)).length)
    (hr2p : (pyStrip r2).head? = some '|') (hr2a : alignRowB (pyStrip r2) = false)
    (hr2w : (parse_table_cells (pyStrip r2)).length =
      (parse_table_cells (pyStrip header)).length)
    (hrest : ∀ l, rest.head? = some l → ¬(pyStrip l).head? = some '|') :
    count_markdown_table_rows_with_headers
        (extract_labeled_block sec "定量比較表:".toList ["判定理由:".toList])
        requiredTableCols = 2 ∧
    table_rule_errs sec = [tableNeedsRowsMsg] ∧
    (tableNeedsRowsMsg.toList.contains '2') = false := by
  have hcount := countRowsLoop_two (parse_table_cells (pyStrip header)).length
    al r1 r2 rest halignPipe halign hr1p hr1a hr1w hr2p hr2a hr2w hrest
  have hfind : count_markdown_table_rows_with_headers
      (extract_labeled_block sec "定量比較表:".toList ["判定理由:".toList])
      requiredTableCols = 2 := by
    unfold count_markdown_table_rows_with_headers
    rw [hsplit, findTableCount_skip requiredTableCols pre _ hpre]
    simp only [findTableCount, hheadPipe, hreq, if_true, hcount]
    rfl
  refine ⟨hfind, ?_, by decide⟩
  unfold table_rule_errs
  simp only [hfind]
  rfl

set_option maxRecDepth 8192 in
/-- Witness for the amended C8 theorem at the concrete section. -/
theorem c8_table_rule_witness :
    count_markdown_table_rows_with_headers
        (extract_labeled_block c8section "定量比較表:".toList ["判定理由:".toList])
        requiredTableCols = 2 ∧
    table_rule_errs c8section = [tableNeedsRowsMsg] ∧
    (tableNeedsRowsMsg.toList.contains '2') = false :=
  c8_table_rule c8section []
    "| サービス名 | ベンダー | 初期費用 | 月額費用 | レイテンシ | 可用性SLO | 運用負荷 | 適用判定 |".toList
    "| - |".toList
    "| a | b | c | d | e | f | g | h |".toList
    "| a2 | b2 | c2 | d2 | e2 | f2 | g2 | h2 |".toList
    [] (by decide) (fun l hl => nomatch hl) (by decide) (by decide) (by decide) (by decide)
    (by decide) (by decide) (by decide) (by decide) (by decide) (by decide)
    (fun l hl => nomatch hl)

set_option maxRecDepth 8192 in
/-- The two-data-row scenario produces the fixed message, which cannot
report the detected count 2: it contains no digit 2 at all. -/
theorem c8_counterexample :
    count_markdown_table_rows_with_headers
        (extract_labeled_block c8section "定量比較表:".toList ["判定理由:".toList])
        requiredTableCols = 2 ∧
    table_rule_errs c8section = [tableNeedsRowsMsg] ∧
    (tableNeedsRowsMsg.toList.contains '2') = false := by
  refine ⟨by decide, ?_, by decide⟩
  rfl

/-- A `guardSafe` success passed the safety check. -/
theorem guardSafe_ok (rel err r : List Char) (h : guardSafe rel err = Except.ok r) :
    is_safe_repo_relative r = true := by
  unfold guardSafe at h
  split at h
  · injection h with h2
    subst h2
    assumption
  · exact Except.noConfusion h

/-- URL-branch successes passed the safety check. -/
theorem urlBranch_ok_safe (ref r : List Char) (h : urlBranch ref = Except.ok r) :
    is_safe_repo_relative r = true := by
  simp only [urlBranch] at h
  iterate 8 all_goals try split at h
  all_goals first
    | exact Except.noConfusion h
    | exact guardSafe_ok _ _ _ h

/-- Absolute-branch successes passed the safety check. -/
theorem absBranch_ok_safe (f : List Char → List Char) (root ref r : List Char)
    (h : absBranch f root ref = Except.ok r) : is_safe_repo_relative r = true := by
  simp only [absBranch] at h
  split at h
  · exact Except.noConfusion h
  · exact guardSafe_ok _ _ _ h

/-- Relative-branch successes passed the safety check. -/
theorem relBranch_ok_safe (ref r : List Char) (h : relBranch ref = Except.ok r) :
    is_safe_repo_relative r = true := by
  simp only [relBranch] at h
  exact guardSafe_ok _ _ _ h

/-- Every `ok` result of `resolve_ref_to_repo_path` passed the
`is_safe_repo_relative` guard: each return site is guarded. -/
theorem resolve_ok_safe (f : List Char → List Char) (root ref r : List Char)
    (h : resolve_ref_to_repo_path f root ref = Except.ok r) :
    is_safe_repo_relative r = true := by
  simp only [resolve_ref_to_repo_path] at h
  split at h
  · exact Except.noConfusion h
  · split at h
    · exact urlBranch_ok_safe _ _ h
    · split at h
      · exact absBranch_ok_safe f root _ _ h
      · exact relBranch_ok_safe _ _ h

/-- Unfolding of the `is_safe_repo_relative` guard into its four checks. -/
theorem is_safe_spec (p : List Char) (h : is_safe_repo_relative p = true) :
    p.isEmpty = false ∧ ¬p.head? = some '/' ∧
    ((splitOnChar '/' p).filter (fun x => x ≠ [])).contains "..".toList = false ∧
    p ≠ ".".toList ∧ p ≠ "..".toList := by
  have h1 : p.isEmpty = false := by
    cases hb : p.isEmpty
    · rfl
    · unfold is_safe_repo_relative at h
      rw [if_pos hb] at h
      exact absurd h (by simp)
  have h2 : ¬p.head? = some '/' := by
    intro hb
    unfold is_safe_repo_relative at h
    rw [if_neg (by simp [h1]), if_pos hb] at h
    exact absurd h (by simp)
  have h3 : ((splitOnChar '/' p).filter (fun x => x ≠ [])).contains "..".toList = false := by
    cases hb : ((splitOnChar '/' p).filter (fun x => x ≠ [])).contains "..".toList
    · rfl
    · unfold is_safe_repo_relative at h
      rw [if_neg (by simp [h1]), if_neg h2, if_pos hb] at h
      exact absurd h (by simp)
  have h45 : ¬(p = ".".toList ∨ p = "..".toList) := by
    intro hb
    unfold is_safe_repo_relative at h
    rw [if_neg (by simp [h1]), if_neg h2, h3, if_neg (by decide), if_pos hb] at h
    exact absurd h (by simp)
  exact ⟨h1, h2, h3, fun hd => h45 (Or.inl hd), fun hd => h45 (Or.inr hd)⟩

/-- C2: a returned candidate of `resolve_ref_to_repo_path` is never
empty, never absolute, never `.` or `..`, and never contains a `..`
segment; and resolving `../../etc/passwd` errors for every repo root and
every `realpath` behaviour. -/
theorem c2_resolve_ref_safety (f : List Char → List Char) (repo_root ref r : List Char)
    (h : resolve_ref_to_repo_path f repo_root ref = Except.ok r) :
    (r.isEmpty = false ∧ ¬r.head? = some '/' ∧
      ((splitOnChar '/' r).filter (fun x => x ≠ [])).contains "..".toList = false ∧
      r ≠ ".".toList ∧ r ≠ "..".toList) ∧
    resolve_ref_to_repo_path f repo_root "../../etc/passwd".toList =
      Except.error ("unsafe repo-relative path: ../../etc/passwd".toList) :=
  ⟨is_safe_spec r (resolve_ok_safe f repo_root ref r h), rfl⟩

/-- Witness for C2 at a plain relative reference. -/
theorem c2_resolve_ref_safety_witness :
    (("docs/a.md".toList).isEmpty = false ∧ ¬("docs/a.md".toList).head? = some '/' ∧
      ((splitOnChar '/' "docs/a.md".toList).filter (fun x => x ≠ [])).contains
        "..".toList = false ∧
      "docs/a.md".toList ≠ ".".toList ∧ "docs/a.md".toList ≠ "..".toList) ∧
    resolve_ref_to_repo_path normpathPosix "/repo".toList "../../etc/passwd".toList =
      Except.error ("unsafe repo-relative path: ../../etc/passwd".toList) :=
  c2_resolve_ref_safety normpathPosix "/repo".toList "docs/a.md".toList
    "docs/a.md".toList rfl

/-- Splitting after a non-CR terminator peels off exactly that line. -/
theorem pySplitLines_term_nr (body : List Char) (b : Char) (more : List Char)
    (hbody : noBreak body = true) (hb : isLineBreak b = true) (hbr : b ≠ '\r') :
    pySplitLines (body ++ b :: more) = (body ++ [b]) :: pySplitLines more := by
  induction body with
  | nil =>
    rw [pySplitLines.eq_def]
    simp [hbr, hb]
  | cons c rest ih =>
    have hc : isLineBreak c = false := by
      have := (List.all_eq_true.mp hbody) c (by simp)
      simpa using this
    have hcr : ¬c = '\r' := by
      intro h
      subst h
      simp [isLineBreak] at hc
    have hbody2 : noBreak rest = true := by
      simp only [noBreak, List.all_cons, Bool.and_eq_true] at hbody
      exact hbody.2
    have hrec := ih hbody2
    rw [pySplitLines.eq_def]
    simp only [List.cons_append]
    simp [hcr, hc, hrec]

/-- Splitting after a CRLF terminator peels off exactly that line. -/
theorem pySplitLines_term_crlf (body more : List Char) (hbody : noBreak body = true) :
    pySplitLines (body ++ '\r' :: '\n' :: more) =
      (body ++ ['\r', '\n']) :: pySplitLines more := by
  induction body with
  | nil =>
    rw [pySplitLines.eq_def]
    simp
  | cons c rest ih =>
    have hc : isLineBreak c = false := by
      have := (List.all_eq_true.mp hbody) c (by simp)
      simpa using this
    have hcr : ¬c = '\r' := by
      intro h
      subst h
      simp [isLineBreak] at hc
    have hbody2 : noBreak rest = true := by
      simp only [noBreak, List.all_cons, Bool.and_eq_true] at hbody
      exact hbody.2
    have hrec := ih hbody2
    rw [pySplitLines.eq_def]
    simp only [List.cons_append]
    simp [hcr, hc, hrec]

/-- Splitting a CR-terminated final line. -/
theorem pySplitLines_term_cr_nil (body : List Char) (hbody : noBreak body = true) :
    pySplitLines (body ++ ['\r']) = [body ++ ['\r']] := by
  induction body with
  | nil =>
    rw [pySplitLines.eq_def]
    simp
  | cons c rest ih =>
    have hc : isLineBreak c = false := by
      have := (List.all_eq_true.mp hbody) c (by simp)
      simpa using this
    have hcr : ¬c = '\r' := by
      intro h
      subst h
      simp [isLineBreak] at hc
    have hbody2 : noBreak rest = true := by
      simp only [noBreak, List.all_cons, Bool.and_eq_true] at hbody
      exact hbody.2
    have hrec := ih hbody2
    rw [pySplitLines.eq_def]
    simp only [List.cons_append]
    simp [hcr, hc, hrec]

/-- Splitting after a bare CR not followed by LF peels off the CR line. -/
theorem pySplitLines_term_cr_cons (body : List Char) (d : Char) (more2 : List Char)
    (hbody : noBreak body = true) (hd : ¬d = '\n') :
    pySplitLines (body ++ '\r' :: d :: more2) =
      (body ++ ['\r']) :: pySplitLines (d :: more2) := by
  induction body with
  | nil =>
    rw [pySplitLines.eq_def]
    simp [hd]
  | cons c rest ih =>
    have hc : isLineBreak c = false := by
      have := (List.all_eq_true.mp hbody) c (by simp)
      simpa using this
    have hcr : ¬c = '\r' := by
      intro h
      subst h
      simp [isLineBreak] at hc
    have hbody2 : noBreak rest = true := by
      simp only [noBreak, List.all_cons, Bool.and_eq_true] at hbody
      exact hbody.2
    have hrec := ih hbody2
    have hnn : pySplitLines (rest ++ '\r' :: d :: more2) ≠ [] := by
      rw [hrec]
      exact List.cons_ne_nil _ _
    rw [pySplitLines.eq_def]
    simp only [List.cons_append]
    simp [hcr, hc, hrec]

/-- A non-empty break-free text is a single line. -/
theorem pySplitLines_noBreak (l : List Char) (h : noBreak l = true) (hne : l ≠ []) :
    pySplitLines l = [l] := by
  induction l with
  | nil => exact absurd rfl hne
  | cons c rest ih =>
    have hc : isLineBreak c = false := by
      have := (List.all_eq_true.mp h) c (by simp)
      simpa using this
    have hcr : ¬c = '\r' := by
      intro hh
      subst hh
      simp [isLineBreak] at hc
    have h2 : noBreak rest = true := by
      simp only [noBreak, List.all_cons, Bool.and_eq_true] at h
      exact h.2
    cases hr : rest with
    | nil =>
      rw [pySplitLines.eq_def]
      simp [hcr, hc, pySplitLines]
    | cons d r2 =>
      have hrec := ih h2
      rw [hr] at hrec
      rw [pySplitLines.eq_def]
      simp [hcr, hc, hrec]

/-- Prepending a break-free character preserves line termination. -/
theorem TermLine_cons (c : Char) (l : List Char) (hc : isLineBreak c = false)
    (h : TermLine l) : TermLine (c :: l) := by
  obtain ⟨body, hb, hform⟩ := h
  refine ⟨c :: body, ?_, ?_⟩
  · simp [noBreak, hc]
    simpa [noBreak] using hb
  · cases hform with
    | inl h1 => exact Or.inl (by rw [h1]; rfl)
    | inr h2 =>
      obtain ⟨b, hbk, heq⟩ := h2
      exact Or.inr ⟨b, hbk, by rw [heq]; rfl⟩

/-- The keepends splitter produces well-formed line lists. -/
theorem linesWF_pySplitLines (t : List Char) : linesWF (pySplitLines t) := by
  induction t using pySplitLines.induct with
  | case1 => exact trivial
  | case2 rest2 ih =>
    rw [pySplitLines.eq_def]
    simp only [if_pos rfl]
    exact ⟨Or.inl ⟨[], rfl, Or.inl rfl⟩, ih⟩
  | case3 d rest2 hd ih =>
    have heq : pySplitLines ('\r' :: d :: rest2) = ['\r'] :: pySplitLines (d :: rest2) := by
      rw [pySplitLines.eq_def]
      simp [hd]
    rw [heq]
    exact ⟨Or.inl ⟨[], rfl, Or.inr ⟨'\r', by decide, rfl⟩⟩, ih⟩
  | case4 =>
    exact ⟨Or.inl ⟨[], rfl, Or.inr ⟨'\r', by decide, rfl⟩⟩, trivial⟩
  | case5 c rest hc hb ih =>
    rw [pySplitLines.eq_def]
    simp only [hc, hb, if_neg, if_pos]
    exact ⟨Or.inl ⟨[], rfl, Or.inr ⟨c, hb, rfl⟩⟩, ih⟩
  | case6 c rest hc hb hnil ih =>
    have hrest : rest = [] := by
      cases hr : rest with
      | nil => rfl
      | cons d r2 => exact absurd (hr ▸ hnil) (pySplitLines_ne_nil d r2)
    subst hrest
    rw [pySplitLines.eq_def]
    simp only [hc, hb]
    exact ⟨Or.inr ⟨rfl, by simp [noBreak, hb], List.cons_ne_nil _ _⟩, trivial⟩
  | case7 c rest hc hb l ls heq ih =>
    rw [pySplitLines.eq_def]
    simp only [hc, hb, heq]
    rw [heq] at ih
    obtain ⟨hl, hls⟩ := ih
    have hcb : isLineBreak c = false := by simpa using hb
    refine ⟨?_, hls⟩
    cases hl with
    | inl hterm => exact Or.inl (TermLine_cons c l hcb hterm)
    | inr hlast =>
      obtain ⟨hls0, hnb, hne⟩ := hlast
      refine Or.inr ⟨hls0, ?_, List.cons_ne_nil _ _⟩
      simp [noBreak, hcb]
      simpa [noBreak] using hnb

/-- Well-formedness is preserved by sublists. -/
theorem linesWF_sublist : ∀ {s ls : List (List Char)}, s.Sublist ls → linesWF ls → linesWF s := by
  intro s ls h
  induction h with
  | slnil => intro _; exact trivial
  | cons a h ih =>
    intro hwf
    exact ih hwf.2
  | cons₂ a h ih =>
    intro hwf
    obtain ⟨ha, hwf2⟩ := hwf
    refine ⟨?_, ih hwf2⟩
    cases ha with
    | inl hterm => exact Or.inl hterm
    | inr hlast =>
      obtain ⟨hnil, hnb, hne⟩ := hlast
      subst hnil
      have : _ = ([] : List (List Char)) := List.sublist_nil.mp h
      exact Or.inr ⟨this, hnb, hne⟩

/-- The fence stripper keeps a sublist of the input lines. -/
theorem stripFencedLines_sublist : ∀ (st : Option (Char × Nat)) (ls : List (List Char)),
    (stripFencedLines st ls).Sublist ls := by
  intro st ls
  induction st, ls using stripFencedLines.induct with
  | case1 _ =>
    rw [stripFencedLines]
  | case2 l rest st heq ih =>
    rw [stripFencedLines]
    simp only [heq]
    exact ih.cons l
  | case3 l rest heq ih =>
    rw [stripFencedLines]
    simp only [heq]
    exact ih.cons₂ l
  | case4 st l rest cn heq hcond ih =>
    rw [stripFencedLines]
    simp only [heq, if_pos hcond]
    exact ih.cons l
  | case5 st l rest cn heq hcond ih =>
    rw [stripFencedLines]
    simp only [heq, if_neg hcond]
    exact ih.cons l
  | case6 st l rest heq ih =>
    rw [stripFencedLines]
    simp only [heq]
    exact ih.cons l

/-- Every line kept by the fence stripper fails the fence-open test. -/
theorem stripFencedLines_open_none : ∀ (st : Option (Char × Nat)) (ls : List (List Char)),
    ∀ l ∈ stripFencedLines st ls, fenceOpen? l = none := by
  intro st ls
  induction st, ls using stripFencedLines.induct with
  | case1 _ =>
    rw [stripFencedLines]
    intro l hl
    exact absurd hl (List.not_mem_nil l)
  | case2 l rest st heq ih =>
    rw [stripFencedLines]
    simp only [heq]
    exact ih
  | case3 l rest heq ih =>
    rw [stripFencedLines]
    simp only [heq]
    intro m hm
    rcases List.mem_cons.mp hm with h | h
    · rw [h]; exact heq
    · exact ih m h
  | case4 st l rest cn heq hcond ih =>
    rw [stripFencedLines]
    simp only [heq, if_pos hcond]
    exact ih
  | case5 st l rest cn heq hcond ih =>
    rw [stripFencedLines]
    simp only [heq, if_neg hcond]
    exact ih
  | case6 st l rest heq ih =>
    rw [stripFencedLines]
    simp only [heq]
    exact ih

/-- `takeWhile` ignores everything from the first failing character on. -/
theorem takeWhile_append_stop (p : Char → Bool) (c : Char) (hc : p c = false) :
    ∀ (X Z : List Char), ((X ++ c :: Z).takeWhile p) = X.takeWhile p := by
  intro X Z
  induction X with
  | nil => simp [List.takeWhile_cons, hc]
  | cons d X ih =>
    simp only [List.cons_append, List.takeWhile_cons]
    split
    · rw [ih]
    · rfl

/-- The fence-open test never looks past a carriage return. -/
theorem fenceOpen?_cr (X Z : List Char) :
    fenceOpen? (X ++ '\r' :: Z) = fenceOpen? (X ++ ['\r']) := by
  unfold fenceOpen?
  have hsp : (fun c => c == ' ' || c == '\t') '\r' = false := by decide
  have h1 := takeWhile_append_stop (fun c => c == ' ' || c == '\t') '\r' hsp X Z
  have h2 := takeWhile_append_stop (fun c => c == ' ' || c == '\t') '\r' hsp X []
  simp only [h1, h2]
  have hk : (X.takeWhile (fun c => c == ' ' || c == '\t')).length ≤ X.length :=
    takeWhileLen _ _
  rw [List.drop_append_of_le_length hk, List.drop_append_of_le_length hk]
  cases hX : X.drop (X.takeWhile (fun c => c == ' ' || c == '\t')).length with
  | nil => rfl
  | cons c X2 =>
    simp only [List.cons_append]
    by_cases hc : (c == '`' || c == '~') = true
    · have hcr : ((fun x => x == c) '\r') = false := by
        have hc2 : c = '`' ∨ c = '~' := by simpa using hc
        rcases hc2 with h | h <;> subst h <;> decide
      rw [takeWhile_append_stop (fun x => x == c) '\r' hcr X2 Z,
        takeWhile_append_stop (fun x => x == c) '\r' hcr X2 []]
    · simp [hc]

/-- Merging CR/LF line pairs does not change the concatenation. -/
theorem mergeCR_flatten : ∀ out : List (List Char), (mergeCR out).flatten = out.flatten := by
  intro out
  induction out using mergeCR.induct with
  | case1 => rfl
  | case2 l => rfl
  | case3 l l2 rest hcond ih =>
    obtain ⟨h1, h2⟩ := hcond
    subst h2
    rw [mergeCR]
    simp [h1, ih]
  | case4 l l2 rest hcond ih =>
    rw [mergeCR]
    simp only [if_neg hcond, List.flatten_cons, ih]

/-- Merging CR/LF line pairs preserves failure of the fence-open test. -/
theorem mergeCR_open_none : ∀ out : List (List Char),
    (∀ l ∈ out, fenceOpen? l = none) → ∀ l ∈ mergeCR out, fenceOpen? l = none := by
  intro out
  induction out using mergeCR.induct with
  | case1 => intro _ l hl; exact absurd hl (List.not_mem_nil l)
  | case2 l => intro h; exact h
  | case3 l l2 rest hcond ih =>
    intro h m hm
    obtain ⟨h1, h2⟩ := hcond
    subst h2
    rw [mergeCR] at hm
    simp only [h1, true_and, if_pos] at hm
    rcases List.mem_cons.mp hm with hml | hmr
    · subst hml
      have hne : l ≠ [] := by
        intro hzz
        subst hzz
        simp at h1
      have hdec : l.dropLast ++ ['\r'] = l := by
        have hg : l.getLast hne = '\r' := by
          have := List.getLast?_eq_getLast l hne
          rw [h1] at this
          exact (Option.some.injEq _ _).mp this.symm
        rw [← hg]
        exact List.dropLast_append_getLast hne
      have : l ++ ['\n'] = l.dropLast ++ '\r' :: '\n' :: [] := by
        rw [← hdec]
        simp
      rw [this, fenceOpen?_cr]
      have hl2 : l.dropLast ++ ['\r'] = l := hdec
      rw [hl2]
      exact h l (by simp)
    · exact ih (fun x hx => h x (by simp [hx])) m hmr
  | case4 l l2 rest hcond ih =>
    intro h m hm
    rw [mergeCR, if_neg hcond] at hm
    rcases List.mem_cons.mp hm with hml | hmr
    · subst hml
      exact h m (by simp)
    · exact ih (fun x hx => h x (by simp [hx])) m hmr

/-- A well-formed line starting with a newline is exactly the bare LF line. -/
theorem wfline_head_nl (l2 : List Char)
    (h : TermLine l2 ∨ noBreak l2 = true) (hhead : l2.head? = some '\n') :
    l2 = ['\n'] := by
  rcases h with hterm | hnb
  · obtain ⟨body, hb, hform⟩ := hterm
    cases body with
    | nil =>
      rcases hform with h3 | ⟨b, hbk, h3⟩
      · rw [h3] at hhead
        simp at hhead
      · rw [h3] at hhead
        simp at hhead
        rw [h3, hhead]
        rfl
    | cons e body2 =>
      have he : isLineBreak e = false := by
        have := (List.all_eq_true.mp hb) e (by simp)
        simpa using this
      rcases hform with h3 | ⟨b, hbk, h3⟩ <;>
        rw [h3] at hhead <;>
        simp at hhead <;>
        rw [hhead] at he <;>
        simp [isLineBreak] at he
  · cases l2 with
    | nil => simp at hhead
    | cons e l2' =>
      simp at hhead
      have he : isLineBreak e = false := by
        have := (List.all_eq_true.mp hnb) e (by simp)
        simpa using this
      rw [hhead] at he
      simp [isLineBreak] at he

/-- Re-splitting the concatenation of well-formed lines merges exactly the
bare-CR/bare-LF adjacent pairs. -/
theorem pySplitLines_flatten_wf : ∀ out : List (List Char), linesWF out →
    pySplitLines out.flatten = mergeCR out := by
  intro out
  induction out using mergeCR.induct with
  | case1 => intro _; rfl
  | case2 l =>
    intro hwf
    obtain ⟨hl, _⟩ := hwf
    rw [mergeCR]
    simp only [List.flatten_cons, List.flatten_nil, List.append_nil]
    rcases hl with hterm | ⟨_, hnb, hne⟩
    · obtain ⟨body, hb, hform⟩ := hterm
      rcases hform with h1 | ⟨b, hbk, heq⟩
      · subst h1
        have := pySplitLines_term_crlf body [] hb
        simpa using this
      · subst heq
        by_cases hbr : b = '\r'
        · subst hbr
          exact pySplitLines_term_cr_nil body hb
        · have := pySplitLines_term_nr body b [] hb hbk hbr
          simpa using this
    · exact pySplitLines_noBreak l hnb hne
  | case3 l l2 rest hcond ih =>
    intro hwf
    obtain ⟨h1, h2⟩ := hcond
    subst h2
    obtain ⟨hl, hl2, hwfr⟩ := hwf
    have hterm : TermLine l := by
      rcases hl with h | ⟨hnil, _, _⟩
      · exact h
      · exact absurd hnil (List.cons_ne_nil _ _)
    obtain ⟨body, hb, hform⟩ := hterm
    have hlform : l = body ++ ['\r'] := by
      rcases hform with h3 | ⟨b, hbk, heq⟩
      · rw [h3, show body ++ ['\r', '\n'] = (body ++ ['\r']) ++ ['\n'] by simp,
          List.getLast?_concat] at h1
        simp at h1
      · rw [heq, List.getLast?_concat] at h1
        simp at h1
        rw [heq, h1]
    subst hlform
    rw [mergeCR, if_pos (And.intro h1 rfl)]
    have hfl : ((body ++ ['\r']) :: ['\n'] :: rest).flatten =
        body ++ '\r' :: '\n' :: rest.flatten := by simp
    rw [hfl, pySplitLines_term_crlf body _ hb, ih hwfr]
    congr 1
    simp
  | case4 l l2 rest hcond ih =>
    intro hwf
    obtain ⟨hl, hwf2⟩ := hwf
    have hterm : TermLine l := by
      rcases hl with h | ⟨hnil, _, _⟩
      · exact h
      · exact absurd hnil (List.cons_ne_nil _ _)
    have hl2alt : TermLine l2 ∨ noBreak l2 = true := by
      rcases hwf2.1 with h | ⟨_, hnb2, _⟩
      · exact Or.inl h
      · exact Or.inr hnb2
    have hl2ne : l2 ≠ [] := by
      rcases hwf2.1 with ⟨body2, hb2, hform2⟩ | ⟨_, _, hne2⟩
      · rcases hform2 with h3 | ⟨b2, _, h3⟩ <;> rw [h3] <;> simp
      · exact hne2
    rw [mergeCR, if_neg hcond]
    have hfl : (l :: l2 :: rest).flatten = l ++ (l2 :: rest).flatten := by simp
    rw [hfl]
    obtain ⟨body, hb, hform⟩ := hterm
    rcases hform with h3 | ⟨b, hbk, heq⟩
    · subst h3
      rw [show body ++ ['\r', '\n'] ++ (l2 :: rest).flatten =
        body ++ '\r' :: '\n' :: (l2 :: rest).flatten by simp,
        pySplitLines_term_crlf body _ hb, ih hwf2]
    · subst heq
      by_cases hbr : b = '\r'
      · subst hbr
        obtain ⟨d, l2', hl2eq⟩ : ∃ d l2', l2 = d :: l2' := by
          cases l2 with
          | nil => exact absurd rfl hl2ne
          | cons d l2' => exact ⟨d, l2', rfl⟩
        have hd : ¬d = '\n' := by
          intro hdeq
          subst hdeq
          subst hl2eq
          have hl2n : l2' = [] := by
            have := wfline_head_nl ('\n' :: l2') hl2alt rfl
            simpa using this
          subst hl2n
          exact hcond ⟨List.getLast?_concat _, rfl⟩
        rw [show body ++ ['\r'] ++ (l2 :: rest).flatten =
          body ++ '\r' :: (l2 :: rest).flatten by simp]
        have hhead : (l2 :: rest).flatten = d :: (l2' ++ rest.flatten) := by
          subst hl2eq
          simp
        rw [hhead, pySplitLines_term_cr_cons body d _ hb hd, ← hhead, ih hwf2]
      · rw [show body ++ [b] ++ (l2 :: rest).flatten =
          body ++ b :: (l2 :: rest).flatten by simp,
          pySplitLines_term_nr body b _ hb hbk hbr, ih hwf2]

/-- C5: `strip_fenced_code_blocks` is idempotent: kept lines all fail the
fence-open test, re-splitting their concatenation only merges bare-CR
lines with bare-LF lines (which still fail the test), so a second pass
keeps every line. -/
theorem c5_strip_fenced_idempotent (t : List Char) :
    strip_fenced_code_blocks (strip_fenced_code_blocks t) = strip_fenced_code_blocks t := by
  have hwf0 : linesWF (pySplitLines t) := linesWF_pySplitLines t
  have hsub : (stripFencedLines none (pySplitLines t)).Sublist (pySplitLines t) :=
    stripFencedLines_sublist none (pySplitLines t)
  have hwf : linesWF (stripFencedLines none (pySplitLines t)) := linesWF_sublist hsub hwf0
  have hopen : ∀ l ∈ stripFencedLines none (pySplitLines t), fenceOpen? l = none :=
    stripFencedLines_open_none none (pySplitLines t)
  have hres : pySplitLines (stripFencedLines none (pySplitLines t)).flatten =
      mergeCR (stripFencedLines none (pySplitLines t)) :=
    pySplitLines_flatten_wf _ hwf
  have hopen2 : ∀ l ∈ mergeCR (stripFencedLines none (pySplitLines t)), fenceOpen? l = none :=
    mergeCR_open_none _ hopen
  show (stripFencedLines none (pySplitLines
      (stripFencedLines none (pySplitLines t)).flatten)).flatten = _
  rw [hres, stripFencedLines_all_none _ hopen2, mergeCR_flatten]
  rfl

end WoolyFluffy
